import Mathlib

/-!
# Verification of the `sortrs` sorting library

A shallow embedding of `src/lib.rs` (insertion sort, heap sort and
introspective sort over a mutable slice with a caller supplied strict
`lt` comparator), together with proofs and refutations of the frozen
claims about the library.

The mutable slice is modelled as a `List α`; a raw pointer into the
slice is modelled as an absolute index (`ptr.offset(i)` becomes
`base + i`).  Every memory access goes through a bounds checked read
(`l[i]?`) or write (`setC`). A read or write outside the allocation
(which in the Rust source would be undefined behaviour) makes the
whole computation return `none`; a run that returns `some` performed
only in-bounds accesses.  Loops whose Rust termination argument relies
on pointer progress are written with an explicit fuel parameter that
is initialised, at each call site, to a bound derived from the indices
at that call site, so that every function is structurally recursive
and computable by the kernel; the proofs show that for the executions
the source can actually reach the fuel never runs out.
-/

namespace Sortrs

variable {α : Type}

/-- Strict weak ordering assumptions on a boolean comparator: asymmetry,
transitivity of `lt` and transitivity of `¬ lt` (the standard
characterisation of a strict weak order). -/
structure IsSWO (lt : α → α → Bool) : Prop where
  asymm : ∀ a b, lt a b = true → lt b a = false
  lt_trans : ∀ a b c, lt a b = true → lt b c = true → lt a c = true
  nlt_trans : ∀ a b c, lt a b = false → lt b c = false → lt a c = false

/-- Checked write: models a store through a raw pointer; `none` when the
index is outside the allocation. -/
def setC (l : List α) (i : Nat) (x : α) : Option (List α) :=
  if i < l.length then some (l.set i x) else none

/-- Checked swap of two slice cells, modelling `ptr::swap`. -/
def swapC (l : List α) (i j : Nat) : Option (List α) := do
  let x ← l[i]?
  let y ← l[j]?
  some ((l.set i y).set j x)

/-- Boolean check that adjacent pairs are nondecreasing:
`lt l[k+1] l[k] = false` for every adjacent pair. -/
def adjSortedB (lt : α → α → Bool) : List α → Bool
  | x :: y :: t => !(lt y x) && adjSortedB lt (y :: t)
  | _ => true

/-- Propositional form of `adjSortedB`. -/
def AdjNondecr (lt : α → α → Bool) (l : List α) : Prop :=
  ∀ i x y, l[i]? = some x → l[i + 1]? = some y → lt y x = false

/-- Adjacent pairs strictly increasing (used for the amended idempotence
claim). -/
def StrictIncr (lt : α → α → Bool) (l : List α) : Prop :=
  ∀ i x y, l[i]? = some x → l[i + 1]? = some y → lt x y = true

/-! ## Insertion sort (`insertsort_impl` in `src/lib.rs`)

The Rust source iterates `i` over `1..len`; for each `i` it reads the
value at `i`, scans backward (`while j > 0 && lt(&*read_ptr, &*ptr.offset(j - 1))`)
for the insertion point `j`, and when `i != j` it `memmove`s the block
`[j, i)` one cell to the right and writes the read value at `j`. -/

/-- The backward scan: starting from `j = i`, decrement `j` while `j > 0`
and `lt read l[j-1]`.  The argument of the recursion is the current `j`. -/
def findJ (lt : α → α → Bool) (l : List α) (rd : α) : Nat → Option Nat
  | 0 => some 0
  | j + 1 => do
    let y : α ← l[j]?
    if lt rd y then findJ lt l rd j else some (j + 1)

/-- `ptr::copy_memory(ptr.offset(j + 1), ptr.offset(j), i - j)` performed
cell by cell from the top (`l[k] := l[k-1]` for `k = i` down to `j + 1`),
matching the overlapping-`memmove` semantics.  The recursion argument is
the current `k`. -/
def shiftC (l : List α) (j : Nat) : Nat → Option (List α)
  | 0 => some l
  | k + 1 =>
    if j < k + 1 then do
      let x ← l[k]?
      let l2 ← setC l (k + 1) x
      shiftC l2 j k
    else some l

/-- One iteration of the outer `for i in 1..len` loop of `insertsort_impl`. -/
def insStep (lt : α → α → Bool) (l : List α) (i : Nat) : Option (List α) := do
  let rd : α ← l[i]?
  let j ← findJ lt l rd i
  if i ≠ j then do
    let l2 ← shiftC l j i
    setC l2 j rd
  else some l

/-- The outer loop; `fuel` is the number of remaining iterations (the Rust
range `1..len` is evaluated once, so the iteration count is fixed on
entry). -/
def insLoop (lt : α → α → Bool) : Nat → List α → Nat → Option (List α)
  | 0, l, _ => some l
  | fuel + 1, l, i => do
    let l2 ← insStep lt l i
    insLoop lt fuel l2 (i + 1)

/-- `insertsort_impl(ptr, len, lt)`: run the outer loop for `i = 1, …, len-1`. -/
def insertsort_impl (lt : α → α → Bool) (l : List α) (len : Nat) : Option (List α) :=
  insLoop lt (len - 1) l 1

/-- `insertsort_by`. -/
def insertsort_by (lt : α → α → Bool) (l : List α) : Option (List α) :=
  insertsort_impl lt l l.length

/-- `insertsort`, using the element type's strict order as comparator. -/
def insertsort [LinearOrder α] (l : List α) : Option (List α) :=
  insertsort_by (fun a b => decide (a < b)) l

/-! ## Heap sort (`heapsort_impl` in `src/lib.rs`)

The heap occupies offsets `[0, e]` of the range starting at `base`
(absolute cell `base + i`); a node `i` has children `2i+1` and `2i+2`,
and the `while next_root < end` guard of `shift_down` is exactly
`2*root < e`. -/

/-- `shift_down(ptr, start, end, lt)`.  One fuel unit is consumed per
loop entry; the loop moves `root` strictly downward in the tree
(`root < s ≤ e`), so any fuel `≥ e + 1 - root` suffices and the call
sites pass such a bound. -/
def shift_down (lt : α → α → Bool) (base : Nat) :
    Nat → List α → Nat → Nat → Option (List α)
  | 0, _, _, _ => none
  | fuel + 1, l, root, e =>
    if 2 * root < e then do
      let rv : α ← l[base + root]?
      let lv : α ← l[base + (2 * root + 1)]?
      let s1 := if lt rv lv then 2 * root + 1 else root
      if 2 * root + 2 ≤ e then do
        let sv : α ← l[base + s1]?
        let rcv : α ← l[base + (2 * root + 2)]?
        let s := if lt sv rcv then 2 * root + 2 else s1
        if s = root then some l
        else do
          let l2 ← swapC l (base + root) (base + s)
          shift_down lt base fuel l2 s e
      else
        if s1 = root then some l
        else do
          let l2 ← swapC l (base + root) (base + s1)
          shift_down lt base fuel l2 s1 e
    else some l

/-- The `while start >= 0` loop of `heapify`; `start` counts down to `0`. -/
def heapifyLoop (lt : α → α → Bool) (base e : Nat) : Nat → List α → Option (List α)
  | 0, l => shift_down lt base (e + 1) l 0 e
  | s + 1, l => do
    let l2 ← shift_down lt base (e + 1) l (s + 1) e
    heapifyLoop lt base e s l2

/-- `heapify(ptr, len, lt)`: sift down from the last parent `(len-2)/2`
back to the root. For `len ≥ 1` the source's `isize` computation
`(len-2)/2` (truncating division) agrees with this `Nat` computation;
every caller passes `len ≥ 1`. -/
def heapify (lt : α → α → Bool) (l : List α) (base len : Nat) : Option (List α) :=
  heapifyLoop lt base (len - 1) ((len - 2) / 2) l

/-- The `while end > 0` loop of `heapsort_impl`: swap the root with cell
`end`, shrink the heap and repair it. -/
def sortDownLoop (lt : α → α → Bool) (base : Nat) : Nat → List α → Option (List α)
  | 0, l => some l
  | e + 1, l => do
    let l2 ← swapC l (base + (e + 1)) base
    let l3 ← shift_down lt base (e + 1) l2 0 e
    sortDownLoop lt base e l3

/-- `heapsort_impl(ptr, len, lt)`. -/
def heapsort_impl (lt : α → α → Bool) (l : List α) (base len : Nat) :
    Option (List α) := do
  let l2 ← heapify lt l base len
  sortDownLoop lt base (len - 1) l2

/-- `heapsort_by`. -/
def heapsort_by (lt : α → α → Bool) (l : List α) : Option (List α) :=
  if 0 < l.length then heapsort_impl lt l 0 l.length else some l

/-- `heapsort`, using the element type's strict order as comparator. -/
def heapsort [LinearOrder α] (l : List α) : Option (List α) :=
  heapsort_by (fun a b => decide (a < b)) l

/-! ## Introspective sort (`introsort_impl` in `src/lib.rs`) -/

/-- `const THRESHOLD: isize = 16`. -/
def THRESHOLD : Nat := 16

/-- Number of binary digits of `n` (`bitLenAux` carries explicit fuel;
`n` halvings always suffice). -/
def bitLenAux : Nat → Nat → Nat
  | 0, _ => 0
  | fuel + 1, n => if n = 0 then 0 else bitLenAux fuel (n / 2) + 1

def bitLen (n : Nat) : Nat := bitLenAux n n

/-- `usize::leading_zeros` on a 64-bit word. -/
def leadingZeros (n : Nat) : Nat := 64 - bitLen n

/-- `lg(n) = mem::size_of::<usize>() * 8 - 1 - n.leading_zeros()`. -/
def lg (n : Nat) : Nat := 64 - 1 - leadingZeros n

/-- `median_3(a, b, c, lt)`: the source takes three pointers and returns
one of them; here it takes the three indices `i j k` and returns one of
them. -/
def median_3 (lt : α → α → Bool) (l : List α) (i j k : Nat) : Option Nat := do
  let x : α ← l[i]?
  let y : α ← l[j]?
  let z : α ← l[k]?
  if lt x y then
    if lt y z then some j
    else if lt x z then some k
    else some i
  else if lt x z then some i
  else if lt y z then some k
  else some j

/-- `while lt(&*first, &*pivot) { first = first.offset(1) }`: the
unguarded upward scan of `partition`.  The fuel is initialised by the
caller to `l.length - first`, so it reaches `0` exactly when `first`
has moved past the end of the allocation — the point where the source
would read out of bounds. -/
def scanUp (lt : α → α → Bool) (l : List α) (v : α) : Nat → Nat → Option Nat
  | _, 0 => none
  | first, fuel + 1 => do
    let x : α ← l[first]?
    if lt x v then scanUp lt l v (first + 1) fuel else some first

/-- `last = last.offset(-1); while lt(&*pivot, &*last) { last = last.offset(-1) }`:
the unguarded downward scan.  Decrementing the pointer below the slice
base (the source would underflow past `ptr`) is reported as `none`. -/
def scanDown (lt : α → α → Bool) (l : List α) (v : α) : Nat → Option Nat
  | 0 => do
    let x : α ← l[0]?
    if lt v x then none else some 0
  | last + 1 => do
    let x : α ← l[last + 1]?
    if lt v x then scanDown lt l v last else some (last + 1)

/-- The main loop of `partition(first, last, pivot, lt)`.  Each iteration
advances `first` by at least one cell, so `l.length + 1 - first` bounds
the number of iterations and is the fuel passed by `partition`. -/
def partitionLoop (lt : α → α → Bool) (pIdx : Nat) :
    Nat → List α → Nat → Nat → Option (List α × Nat)
  | 0, _, _, _ => none
  | fuel + 1, l, first, last => do
    let v : α ← l[pIdx]?
    let f ← scanUp lt l v first (l.length - first)
    let lo ← scanDown lt l v (last - 1)
    if f < lo then do
      let l2 ← swapC l f lo
      partitionLoop lt pIdx fuel l2 (f + 1) lo
    else some (l, f)

/-- `partition(ptr.offset(first), ptr.offset(last), pivot, lt)` with
absolute indices; like the source, the pivot value is re-read through
the pivot pointer on every iteration. -/
def partition (lt : α → α → Bool) (l : List α) (pIdx first last : Nat) :
    Option (List α × Nat) :=
  partitionLoop lt pIdx (l.length + 1 - first) l first last

/-- `partition_pivot(ptr, len, lt)`: median-of-3 of the cells at offsets
`1`, `len/2` and `len-1` of the range (note: offset `1`, not `0`), swap
it to offset `0`, then partition `[1, len)` around it. -/
def partition_pivot (lt : α → α → Bool) (l : List α) (base len : Nat) :
    Option (List α × Nat) := do
  let p ← median_3 lt l (base + 1) (base + len / 2) (base + (len - 1))
  let l2 ← swapC l base p
  partition lt l2 base (base + 1) (base + len)

/-- `introsort_loop(ptr, last, depth_limit, lt)`.  The recursion is
structural on `depth_limit`: the source decrements `depth_limit` once
per loop iteration and passes the decremented value to its single
recursive call (range `[pivot, last)`), then continues the loop on
`[first, pivot)` with the same decremented value — which is the second
self-call below. -/
def introsort_loop (lt : α → α → Bool) (depth : Nat) (l : List α)
    (base last : Nat) : Option (List α) :=
  if last - base > THRESHOLD then
    match depth with
    | 0 => heapsort_impl lt l base (last - base)
    | d + 1 => do
      let pr ← partition_pivot lt l base (last - base)
      let l2 ← introsort_loop lt d pr.1 pr.2 last
      introsort_loop lt d l2 base pr.2
  else some l

/-- `introsort_impl(v, lt)`: quicksort/heapsort loop with depth budget
`2 * lg(len)`, then one insertion-sort pass over the whole slice. -/
def introsort_impl (lt : α → α → Bool) (l : List α) : Option (List α) :=
  if 0 < l.length then do
    let l2 ← introsort_loop lt (2 * lg l.length) l 0 l.length
    insertsort_impl lt l2 l.length
  else some l

/-- `introsort_by`. -/
def introsort_by (lt : α → α → Bool) (l : List α) : Option (List α) :=
  introsort_impl lt l

/-- `introsort`, using the element type's strict order as comparator. -/
def introsort [LinearOrder α] (l : List α) : Option (List α) :=
  introsort_impl (fun a b => decide (a < b)) l

/-- Instrumented clone of `introsort_loop` that records, in order, the
`(pivot, last)` index pair passed to each *recursive* `introsort_loop`
call made by the source (the loop continuation is not a function call
and is not recorded, but the recursive calls made while iterating on
`[first, pivot)` are). -/
def introsortCalls (lt : α → α → Bool) (depth : Nat) (l : List α)
    (base last : Nat) : List (Nat × Nat) :=
  if last - base > THRESHOLD then
    match depth with
    | 0 => []
    | d + 1 =>
      match partition_pivot lt l base (last - base) with
      | none => []
      | some (l1, b) =>
        (b, last) ::
          (introsortCalls lt d l1 b last ++
            match introsort_loop lt d l1 b last with
            | none => []
            | some l2 => introsortCalls lt d l2 base b)
  else []

/-! ## Facts about `swapC` -/

/-- Parent index of heap node `i` (children of `p` are `2p+1`, `2p+2`). -/
def parentIdx (i : Nat) : Nat := (i - 1) / 2

/-- `InSub r i`: heap node `i` lies in the subtree rooted at `r`. -/
inductive InSub (r : Nat) : Nat → Prop
  | refl : InSub r r
  | left {i} : InSub r i → InSub r (2 * i + 1)
  | right {i} : InSub r i → InSub r (2 * i + 2)

/-- The heap edge condition at child `i`: the parent's value is not less
than the child's value. -/
def EdgeOK (lt : α → α → Bool) (l : List α) (base i : Nat) : Prop :=
  ∀ x y, l[base + parentIdx i]? = some x → l[base + i]? = some y → lt x y = false

/-- All heap edges whose parent index is at least `s` hold (children
within `[1, e]`). -/
def HeapFrom (lt : α → α → Bool) (l : List α) (base s e : Nat) : Prop :=
  ∀ i, 1 ≤ i → i ≤ e → s ≤ parentIdx i → EdgeOK lt l base i

/-- Shape of the slice after one insertion step: positions below `j` and
above `i` are untouched, the value read at `i` sits at `j`, and the block
`[j, i)` moved one cell to the right. -/
def InsShape (l r : List α) (i j : Nat) : Prop :=
  r.length = l.length ∧ (∀ k, k < j → r[k]? = l[k]?) ∧ r[j]? = l[i]? ∧
    (∀ k, j < k → k ≤ i → r[k]? = l[k - 1]?) ∧ (∀ k, i < k → r[k]? = l[k]?)

/-- The first `m` cells are adjacent-nondecreasing. -/
def AdjPrefix (lt : α → α → Bool) (l : List α) (m : Nat) : Prop :=
  ∀ k x y, k + 1 < m → l[k]? = some x → l[k + 1]? = some y → lt y x = false

/-- The comparator of `insertsort`/`heapsort`/`introsort` on `ℕ`. -/
def natLT : Nat → Nat → Bool := fun a b => decide (a < b)

/-- Comparing pairs by their first component: a strict weak ordering with
ties, used to probe the idempotence claim. -/
def pairLT : Nat × Nat → Nat × Nat → Bool := fun a b => decide (a.1 < b.1)

/-- Boolean check that every adjacent pair is strictly increasing. -/
def strictIncrB (lt : α → α → Bool) : List α → Bool
  | x :: y :: t => lt x y && strictIncrB lt (y :: t)
  | _ => true

/-- A reverse-sorted sequence of 18 distinct naturals: long enough that
`introsort` performs a genuine partition step. -/
def rev18 : List Nat :=
  [17, 16, 15, 14, 13, 12, 11, 10, 9, 8, 7, 6, 5, 4, 3, 2, 1, 0]

/-- A 17-element array on which the pivot candidates at offsets 0 and 1 of
the range hold different values (100 at offset 0, 0 at offset 1), so the two
candidate position sets select different pivots. -/
def arrC5 : List Nat :=
  [100, 0, 2, 3, 4, 6, 7, 8, 5, 9, 11, 12, 13, 14, 15, 16, 10]

/-- The array produced by the pivot-selection swap and partition of `rev18`
over the range `[0, 18)`: `partition_pivot natLT rev18 0 18` returns it with
boundary `9`. -/
def introC6mid : List Nat :=
  [8, 0, 1, 2, 3, 4, 5, 6, 7, 17, 9, 10, 11, 12, 13, 14, 15, 16]

/-! ## Theorems -/

theorem IsSWO.irrefl {lt : α → α → Bool} (h : IsSWO lt) (a : α) : lt a a = false := by
  cases hab : lt a a with
  | false => rfl
  | true =>
    rw [← hab]
    exact h.asymm a a hab

theorem adjSortedB_cons_cons {lt : α → α → Bool} {x y : α} {t : List α} :
    adjSortedB lt (x :: y :: t) = (!(lt y x) && adjSortedB lt (y :: t)) := rfl

theorem adjSortedB_iff {lt : α → α → Bool} :
    ∀ {l : List α}, adjSortedB lt l = true ↔ AdjNondecr lt l := by
  intro l
  induction l with
  | nil =>
    simp [adjSortedB, AdjNondecr]
  | cons x t ih =>
    cases t with
    | nil =>
      constructor
      · intro _ i a b ha hb
        cases i with
        | zero => simp at hb
        | succ n => simp at ha
      · intro _; rfl
    | cons y t' =>
      rw [adjSortedB_cons_cons, Bool.and_eq_true, ih]
      constructor
      · rintro ⟨h1, h2⟩ i a b ha hb
        cases i with
        | zero =>
          simp only [List.getElem?_cons_zero, Option.some.injEq] at ha
          simp only [List.getElem?_cons_succ, List.getElem?_cons_zero,
            Option.some.injEq] at hb
          subst ha; subst hb
          simpa using h1
        | succ n =>
          exact h2 n a b (by simpa using ha) (by simpa using hb)
      · intro h
        refine ⟨?_, fun i a b ha hb => h (i + 1) a b ?_ ?_⟩
        · have := h 0 x y (by simp) (by simp)
          simpa using this
        · simpa using ha
        · simpa using hb

theorem adjNondecr_tail {lt : α → α → Bool} {x : α} {t : List α}
    (h : AdjNondecr lt (x :: t)) : AdjNondecr lt t := by
  intro i a b ha hb
  exact h (i + 1) a b (by simpa using ha) (by simpa using hb)

/-! ## Generic permutation helpers -/

theorem set_cons_perm {t : List α} {k : Nat} {y : α} (x : α)
    (hk : t[k]? = some y) : List.Perm (y :: t.set k x) (x :: t) := by
  induction t generalizing k with
  | nil => simp at hk
  | cons b t' ih =>
    cases k with
    | zero =>
      simp only [List.getElem?_cons_zero, Option.some.injEq] at hk
      subst hk
      simpa [List.set] using List.Perm.swap x b t'
    | succ k' =>
      simp only [List.getElem?_cons_succ] at hk
      have h1 : List.Perm (y :: b :: t'.set k' x) (b :: y :: t'.set k' x) :=
        List.Perm.swap b y _
      have h2 : List.Perm (b :: y :: t'.set k' x) (b :: (x :: t')) :=
        List.Perm.cons b (ih hk)
      have h3 : List.Perm (b :: x :: t') (x :: b :: t') := List.Perm.swap x b t'
      simpa [List.set] using (h1.trans h2).trans h3

theorem set_set_swap_perm {l : List α} {i j : Nat} {x y : α}
    (hi : l[i]? = some x) (hj : l[j]? = some y) :
    List.Perm ((l.set i y).set j x) l := by
  induction l generalizing i j with
  | nil => simp at hi
  | cons a t ih =>
    cases i with
    | zero =>
      simp only [List.getElem?_cons_zero, Option.some.injEq] at hi
      subst hi
      cases j with
      | zero =>
        simp only [List.getElem?_cons_zero, Option.some.injEq] at hj
        subst hj
        simp [List.set]
      | succ j' =>
        simp only [List.getElem?_cons_succ] at hj
        simpa [List.set] using set_cons_perm a hj
    | succ i' =>
      simp only [List.getElem?_cons_succ] at hi
      cases j with
      | zero =>
        simp only [List.getElem?_cons_zero, Option.some.injEq] at hj
        subst hj
        simpa [List.set] using set_cons_perm a hi
      | succ j' =>
        simp only [List.getElem?_cons_succ] at hj
        simpa [List.set] using List.Perm.cons a (ih hi hj)

/-! ### Specification of the insertion-sort building blocks -/

theorem findJ_spec {lt : α → α → Bool} {l : List α} {x : α} :
    ∀ {i j : Nat}, findJ lt l x i = some j →
      j ≤ i ∧ (∀ k, j ≤ k → k < i → ∃ y, l[k]? = some y ∧ lt x y = true) ∧
        (0 < j → ∃ y, l[j - 1]? = some y ∧ lt x y = false) := by
  intro i
  induction i with
  | zero =>
    intro j h
    simp only [findJ, Option.some.injEq] at h
    subst h
    exact ⟨Nat.le_refl 0, fun k hk hk' => absurd (Nat.lt_of_le_of_lt hk hk') (by omega),
      fun h0 => absurd h0 (by omega)⟩
  | succ i ih =>
    intro j h
    simp only [findJ, Option.bind_eq_bind] at h
    cases hy : l[i]? with
    | none => rw [hy] at h; cases h
    | some y =>
      rw [hy, Option.some_bind] at h
      by_cases hxy : lt x y = true
      · rw [if_pos hxy] at h
        obtain ⟨h1, h2, h3⟩ := ih h
        refine ⟨Nat.le_succ_of_le h1, ?_, h3⟩
        intro k hk hk'
        rcases Nat.lt_or_ge k i with hki | hki
        · exact h2 k hk hki
        · have : k = i := by omega
          subst this
          exact ⟨y, hy, hxy⟩
      · rw [if_neg hxy] at h
        simp only [Option.some.injEq] at h
        subst h
        refine ⟨Nat.le_refl _, fun k hk hk' => absurd (Nat.lt_of_le_of_lt hk hk') (by omega),
          fun _ => ⟨y, by simpa using hy, by simpa using hxy⟩⟩

theorem findJ_total (lt : α → α → Bool) (l : List α) (x : α) :
    ∀ i, i ≤ l.length → ∃ j, findJ lt l x i = some j := by
  intro i
  induction i with
  | zero => exact fun _ => ⟨0, rfl⟩
  | succ i ih =>
    intro hi
    have hil : i < l.length := by omega
    have hy : l[i]? = some l[i] := List.getElem?_eq_getElem hil
    by_cases hxy : lt x l[i] = true
    · obtain ⟨j, hj⟩ := ih (by omega)
      refine ⟨j, ?_⟩
      simp only [findJ, Option.bind_eq_bind, hy, Option.some_bind]
      rw [if_pos hxy]
      exact hj
    · refine ⟨i + 1, ?_⟩
      simp only [findJ, Option.bind_eq_bind, hy, Option.some_bind]
      rw [if_neg hxy]

theorem shiftC_spec {j : Nat} :
    ∀ {i : Nat} {l : List α}, j ≤ i → i < l.length →
      ∃ r, shiftC l j i = some r ∧ r.length = l.length ∧
        (∀ k, k ≤ j → r[k]? = l[k]?) ∧
        (∀ k, j < k → k ≤ i → r[k]? = l[k - 1]?) ∧
        (∀ k, i < k → r[k]? = l[k]?) := by
  intro i
  induction i with
  | zero =>
    intro l hj _
    have : j = 0 := Nat.le_zero.mp hj
    subst this
    exact ⟨l, rfl, rfl, fun _ _ => rfl, fun k h1 h2 => absurd (Nat.lt_of_lt_of_le h1 h2) (by omega),
      fun _ _ => rfl⟩
  | succ i ih =>
    intro l hj hi
    rcases Nat.lt_or_ge j (i + 1) with hji | hji
    · have hil : i < l.length := by omega
      obtain ⟨x, hx⟩ : ∃ x, l[i]? = some x := ⟨l[i], List.getElem?_eq_getElem hil⟩
      have hset : setC l (i + 1) x = some (l.set (i + 1) x) := by
        simp [setC, hi]
      have hlen2 : (l.set (i + 1) x).length = l.length := by simp
      obtain ⟨r, hr, hrl, h1, h2, h3⟩ := ih (l := l.set (i + 1) x) (by omega) (by omega)
      refine ⟨r, ?_, by omega, ?_, ?_, ?_⟩
      · simp only [shiftC, if_pos hji, hx, Option.bind_eq_bind, Option.some_bind, hset]
        exact hr
      · intro k hk
        rw [h1 k hk, List.getElem?_set_ne (by omega)]
      · intro k hk1 hk2
        rcases Nat.lt_or_ge k (i + 1) with hki | hki
        · rw [h2 k hk1 (by omega), List.getElem?_set_ne (by omega)]
        · have : k = i + 1 := by omega
          subst this
          rw [h3 (i + 1) (by omega), List.getElem?_set_self (by omega)]
          simp only [Nat.add_sub_cancel]
          exact hx.symm
      · intro k hk
        rw [h3 k (by omega), List.getElem?_set_ne (by omega)]
    · -- j = i + 1 : the block is empty and nothing moves
      have : ¬ j < i + 1 := by omega
      refine ⟨l, by simp [shiftC, this], rfl, fun _ _ => rfl,
        fun k h1 h2 => absurd (Nat.lt_of_lt_of_le h1 h2) (by omega), fun _ _ => rfl⟩

theorem insStep_spec (lt : α → α → Bool) {l : List α} {i : Nat} (hi : i < l.length) :
    ∃ r j, insStep lt l i = some r ∧ findJ lt l l[i] i = some j ∧ j ≤ i ∧
      InsShape l r i j := by
  have hrd : l[i]? = some l[i] := List.getElem?_eq_getElem hi
  obtain ⟨j, hj⟩ := findJ_total lt l l[i] i (by omega)
  obtain ⟨hji, hscan, hstop⟩ := findJ_spec hj
  by_cases hij : i = j
  · subst hij
    refine ⟨l, i, ?_, hj, Nat.le_refl i, rfl, fun _ _ => rfl, rfl, ?_, fun _ _ => rfl⟩
    · simp [insStep, hrd, hj]
    · intro k h1 h2; omega
  · obtain ⟨r0, hr0, hr0l, hA, hB, hC⟩ := shiftC_spec hji hi
    have hjlen : j < r0.length := by omega
    refine ⟨r0.set j l[i], j, ?_, hj, hji, by simp [hr0l], ?_, ?_, ?_, ?_⟩
    · simp [insStep, hrd, hj, hij, hr0, setC, hjlen]
    · intro k hk
      rw [List.getElem?_set_ne (by omega), hA k (by omega)]
    · rw [List.getElem?_set_self hjlen, hrd]
    · intro k h1 h2
      rw [List.getElem?_set_ne (by omega), hB k h1 h2]
    · intro k hk
      rw [List.getElem?_set_ne (by omega), hC k hk]

theorem insert_shape_perm {l r : List α} {i j : Nat} (hi : i < l.length) (hj : j ≤ i)
    (hs : InsShape l r i j) : List.Perm r l := by
  obtain ⟨hlen, h1, h2, h3, h4⟩ := hs
  have hjl : j ≤ l.length := by omega
  have hmidlen : ((l.drop j).take (i - j)).length = i - j := by
    rw [List.length_take, List.length_drop]
    omega
  have htakelen : (l.take j).length = j := by
    rw [List.length_take]
    omega
  have hr : r = l.take j ++ l[i] :: ((l.drop j).take (i - j) ++ l.drop (i + 1)) := by
    apply List.ext_getElem?
    intro n
    rcases Nat.lt_or_ge n j with hn | hn
    · rw [List.getElem?_append_left (by rw [htakelen]; omega),
        List.getElem?_take_of_lt hn, h1 n hn]
    · rw [List.getElem?_append_right (by rw [htakelen]; omega), htakelen]
      rcases Nat.eq_or_lt_of_le hn with hn2 | hn2
      · subst hn2
        rw [Nat.sub_self]
        simp only [List.getElem?_cons_zero]
        rw [h2, List.getElem?_eq_getElem hi]
      · rw [show n - j = (n - j - 1) + 1 by omega]
        simp only [List.getElem?_cons_succ]
        rcases Nat.lt_or_ge n (i + 1) with hni | hni
        · rw [List.getElem?_append_left (by rw [hmidlen]; omega),
            List.getElem?_take_of_lt (by omega), List.getElem?_drop,
            h3 n hn2 (by omega)]
          congr 1
          omega
        · rw [List.getElem?_append_right (by rw [hmidlen]; omega), hmidlen,
            List.getElem?_drop, h4 n (by omega)]
          congr 1
          omega
  have hl : l = l.take j ++ ((l.drop j).take (i - j) ++ l[i] :: l.drop (i + 1)) := by
    have hdj : l.drop j = (l.drop j).take (i - j) ++ (l.drop j).drop (i - j) := by
      rw [List.take_append_drop]
    have hdd : (l.drop j).drop (i - j) = l.drop i := by
      rw [List.drop_drop]
      congr 1
      omega
    have hdi : l.drop i = l[i] :: l.drop (i + 1) := List.drop_eq_getElem_cons hi
    calc l = l.take j ++ l.drop j := (List.take_append_drop j l).symm
      _ = l.take j ++ ((l.drop j).take (i - j) ++ l[i] :: l.drop (i + 1)) := by
          rw [← hdi, ← hdd, ← hdj]
  rw [hr]
  conv_rhs => rw [hl]
  exact List.Perm.append_left _ (List.perm_middle.symm)

theorem adjPrefix_length_iff {lt : α → α → Bool} {l : List α} :
    AdjPrefix lt l l.length ↔ AdjNondecr lt l := by
  constructor
  · intro h k x y hx hy
    have : k + 1 < l.length := (List.getElem?_eq_some_iff.mp hy).1
    exact h k x y this hx hy
  · intro h k x y _ hx hy
    exact h k x y hx hy

theorem insStep_adj {lt : α → α → Bool}
    (hasym : ∀ a b, lt a b = true → lt b a = false)
    {l r : List α} {i j : Nat} (hi : i < l.length)
    (hj : findJ lt l l[i] i = some j) (hji : j ≤ i)
    (hs : InsShape l r i j) (hpre : AdjPrefix lt l i) :
    AdjPrefix lt r (i + 1) := by
  obtain ⟨hlen, h1, h2, h3, h4⟩ := hs
  obtain ⟨_, hscan, hstop⟩ := findJ_spec hj
  intro k x y hk hx hy
  rcases Nat.lt_or_ge (k + 1) j with hc | hc
  · -- both cells untouched
    rw [h1 k (by omega)] at hx
    rw [h1 (k + 1) hc] at hy
    exact hpre k x y (by omega) hx hy
  rcases Nat.eq_or_lt_of_le hc with hc2 | hc2
  · -- the pair (j-1, j): the scan's stop condition
    subst hc2
    rw [h1 k (by omega)] at hx
    rw [h2, List.getElem?_eq_getElem hi] at hy
    simp only [Option.some.injEq] at hy
    subst hy
    obtain ⟨z, hz, hltz⟩ := hstop (by omega)
    rw [Nat.add_sub_cancel, hx] at hz
    simp only [Option.some.injEq] at hz
    subst hz
    exact hltz
  rcases Nat.eq_or_lt_of_le hc2 with hc3 | hc3
  · -- the pair (j, j+1): the value at j+1 was scanned over
    have hkj : k = j := by omega
    subst hkj
    rw [h2, List.getElem?_eq_getElem hi, Option.some.injEq] at hx
    subst hx
    rw [h3 (k + 1) (by omega) (by omega)] at hy
    simp only [Nat.add_sub_cancel] at hy
    obtain ⟨z, hz, hltz⟩ := hscan k (by omega) (by omega)
    rw [hz, Option.some.injEq] at hy
    subst hy
    exact hasym _ _ hltz
  · -- a shifted pair: it was the pair (k-1, k) before the shift
    rw [h3 k (by omega) (by omega)] at hx
    rw [h3 (k + 1) (by omega) (by omega)] at hy
    simp only [Nat.add_sub_cancel] at hy
    have := hpre (k - 1) x y (by omega)
    rw [show k - 1 + 1 = k by omega] at this
    exact this hx hy

theorem insLoop_spec {lt : α → α → Bool}
    (hasym : ∀ a b, lt a b = true → lt b a = false) :
    ∀ (fuel : Nat) (l : List α) (i : Nat), 1 ≤ i → i + fuel = l.length →
      AdjPrefix lt l i →
      ∃ r, insLoop lt fuel l i = some r ∧ r.length = l.length ∧ List.Perm r l ∧
        AdjNondecr lt r := by
  intro fuel
  induction fuel with
  | zero =>
    intro l i h1 h2 h3
    refine ⟨l, rfl, rfl, List.Perm.refl l, ?_⟩
    rw [← adjPrefix_length_iff]
    rw [← h2]
    simpa using h3
  | succ fuel ih =>
    intro l i h1 h2 hpre
    have hi : i < l.length := by omega
    obtain ⟨r0, j, hstep, hj, hji, hshape⟩ := insStep_spec lt hi
    have hperm0 := insert_shape_perm hi hji hshape
    have hadj0 := insStep_adj hasym hi hj hji hshape hpre
    obtain ⟨r, hr, hrlen, hrperm, hradj⟩ :=
      ih r0 (i + 1) (by omega) (by rw [hshape.1]; omega) (by
        intro k x y hk hx hy
        exact hadj0 k x y hk hx hy)
    refine ⟨r, ?_, by rw [hrlen, hshape.1], hrperm.trans hperm0, hradj⟩
    simp only [insLoop, Option.bind_eq_bind, hstep, Option.some_bind]
    exact hr

theorem insLoop_perm {lt : α → α → Bool} :
    ∀ (fuel : Nat) (l : List α) (i : Nat), 1 ≤ i → i + fuel ≤ l.length →
      ∃ r, insLoop lt fuel l i = some r ∧ r.length = l.length ∧ List.Perm r l := by
  intro fuel
  induction fuel with
  | zero => exact fun l i _ _ => ⟨l, rfl, rfl, List.Perm.refl l⟩
  | succ fuel ih =>
    intro l i h1 h2
    have hi : i < l.length := by omega
    obtain ⟨r0, j, hstep, hj, hji, hshape⟩ := insStep_spec lt hi
    have hperm0 := insert_shape_perm hi hji hshape
    obtain ⟨r, hr, hrlen, hrperm⟩ := ih r0 (i + 1) (by omega) (by rw [hshape.1]; omega)
    refine ⟨r, ?_, by rw [hrlen, hshape.1], hrperm.trans hperm0⟩
    simp only [insLoop, Option.bind_eq_bind, hstep, Option.some_bind]
    exact hr

theorem insStep_sorted_id {lt : α → α → Bool} {l : List α} {i : Nat}
    (hi : i < l.length) (h1 : 1 ≤ i) (hpre : AdjPrefix lt l (i + 1)) :
    insStep lt l i = some l := by
  have hrd : l[i]? = some l[i] := List.getElem?_eq_getElem hi
  obtain ⟨i', rfl⟩ : ∃ i', i = i' + 1 := ⟨i - 1, by omega⟩
  have hi' : i' < l.length := by omega
  have hrd' : l[i']? = some l[i'] := List.getElem?_eq_getElem hi'
  have hstop : lt l[i' + 1] l[i'] = false :=
    hpre i' l[i'] l[i' + 1] (by omega) hrd' hrd
  have hfind : findJ lt l l[i' + 1] (i' + 1) = some (i' + 1) := by
    simp only [findJ, Option.bind_eq_bind, hrd', Option.some_bind]
    rw [if_neg (by simp [hstop])]
  simp [insStep, hrd, hfind]

theorem insLoop_sorted_id {lt : α → α → Bool} :
    ∀ (fuel : Nat) (l : List α) (i : Nat), 1 ≤ i → i + fuel ≤ l.length →
      AdjNondecr lt l → insLoop lt fuel l i = some l := by
  intro fuel
  induction fuel with
  | zero => intro l i _ _ _; rfl
  | succ fuel ih =>
    intro l i h1 h2 hadj
    have hstep : insStep lt l i = some l :=
      insStep_sorted_id (by omega) h1 (fun k x y _ hx hy => hadj k x y hx hy)
    simp only [insLoop, Option.bind_eq_bind, hstep, Option.some_bind]
    exact ih l (i + 1) (by omega) (by omega) hadj

/-! ### Top-level insertion-sort facts -/

theorem insertsort_impl_total_perm (lt : α → α → Bool) (l : List α) :
    ∃ r, insertsort_impl lt l l.length = some r ∧ r.length = l.length ∧
      List.Perm r l := by
  rcases Nat.eq_zero_or_pos l.length with h0 | h0
  · exact ⟨l, by simp [insertsort_impl, h0, insLoop], rfl, List.Perm.refl l⟩
  · exact insLoop_perm (l.length - 1) l 1 (by omega) (by omega)

theorem insertsort_impl_sorted {lt : α → α → Bool}
    (hasym : ∀ a b, lt a b = true → lt b a = false) (l : List α) :
    ∃ r, insertsort_impl lt l l.length = some r ∧ r.length = l.length ∧
      List.Perm r l ∧ AdjNondecr lt r := by
  rcases Nat.eq_zero_or_pos l.length with h0 | h0
  · refine ⟨l, by simp [insertsort_impl, h0, insLoop], rfl, List.Perm.refl l, ?_⟩
    intro k x y hx _
    have := (List.getElem?_eq_some_iff.mp hx).1
    omega
  · exact insLoop_spec hasym (l.length - 1) l 1 (by omega) (by omega)
      (fun k x y hk _ _ => by omega)

theorem insertsort_impl_id_of_sorted {lt : α → α → Bool} {l : List α}
    (h : AdjNondecr lt l) : insertsort_impl lt l l.length = some l := by
  rcases Nat.eq_zero_or_pos l.length with h0 | h0
  · simp [insertsort_impl, h0, insLoop]
  · exact insLoop_sorted_id (l.length - 1) l 1 (by omega) (by omega) h

theorem swapC_spec {l : List α} {i j : Nat} (hi : i < l.length) (hj : j < l.length) :
    ∃ r, swapC l i j = some r ∧ r.length = l.length ∧ List.Perm r l ∧
      r[i]? = l[j]? ∧ r[j]? = l[i]? ∧ ∀ k, k ≠ i → k ≠ j → r[k]? = l[k]? := by
  have hgi : l[i]? = some l[i] := List.getElem?_eq_getElem hi
  have hgj : l[j]? = some l[j] := List.getElem?_eq_getElem hj
  refine ⟨(l.set i l[j]).set j l[i], ?_, by simp, set_set_swap_perm hgi hgj, ?_, ?_, ?_⟩
  · simp [swapC, hgi, hgj]
  · by_cases hij : i = j
    · subst hij
      rw [List.getElem?_set_self (by simpa using hi), hgj]
    · rw [List.getElem?_set_ne (fun h => hij h.symm), List.getElem?_set_self hi, hgj]
  · rw [List.getElem?_set_self (by simpa using hj), hgi]
  · intro k hki hkj
    rw [List.getElem?_set_ne (fun h => hkj h.symm), List.getElem?_set_ne (fun h => hki h.symm)]

theorem swapC_eq_some {l r : List α} {i j : Nat} (h : swapC l i j = some r) :
    ∃ x y, l[i]? = some x ∧ l[j]? = some y ∧ r = (l.set i y).set j x := by
  simp only [swapC, Option.bind_eq_bind, Option.bind_eq_some] at h
  obtain ⟨x, hx, y, hy, hr⟩ := h
  simp only [Option.some.injEq] at hr
  exact ⟨x, y, hx, hy, hr.symm⟩

theorem swapC_perm {l r : List α} {i j : Nat} (h : swapC l i j = some r) :
    List.Perm r l ∧ r.length = l.length := by
  obtain ⟨x, y, hx, hy, hr⟩ := swapC_eq_some h
  subst hr
  exact ⟨set_set_swap_perm hx hy, by simp⟩

/-! ## The binary-heap subtree relation -/

theorem InSub.le {r i : Nat} (h : InSub r i) : r ≤ i := by
  induction h with
  | refl => exact Nat.le_refl r
  | left _ ih => omega
  | right _ ih => omega

theorem InSub.ge_child {r i : Nat} (h : InSub r i) : i = r ∨ 2 * r + 1 ≤ i := by
  cases h with
  | refl => exact Or.inl rfl
  | left h => have := h.le; omega
  | right h => have := h.le; omega

theorem InSub.parent {r i : Nat} (h : InSub r i) (hne : i ≠ r) :
    InSub r (parentIdx i) ∧ parentIdx i < i := by
  cases h with
  | refl => exact absurd rfl hne
  | @left j hj =>
    have hp : parentIdx (2 * j + 1) = j := by unfold parentIdx; omega
    rw [hp]
    exact ⟨hj, by omega⟩
  | @right j hj =>
    have hp : parentIdx (2 * j + 2) = j := by unfold parentIdx; omega
    rw [hp]
    exact ⟨hj, by omega⟩

theorem InSub.zero : ∀ i, InSub 0 i := by
  intro i
  induction i using Nat.strong_induction_on with
  | _ i ih =>
    match i with
    | 0 => exact InSub.refl
    | i + 1 =>
      have hp : InSub 0 ((i + 1 - 1) / 2) := ih _ (by omega)
      rcases Nat.even_or_odd i with he | ho
      · obtain ⟨j, hj⟩ := he
        have : i + 1 = 2 * j + 1 := by omega
        rw [this]
        exact InSub.left (by rw [show j = (i + 1 - 1) / 2 from by omega]; exact hp)
      · obtain ⟨j, hj⟩ := ho
        have : i + 1 = 2 * j + 2 := by omega
        rw [this]
        exact InSub.right (by rw [show j = (i + 1 - 1) / 2 from by omega]; exact hp)

theorem InSub.sibling_left {r p : Nat} (h : InSub (2 * r + 1) p) : p ≠ 2 * r + 2 := by
  intro he
  rcases h.ge_child with h1 | h1 <;> omega

theorem InSub.sibling_right {r p : Nat} (h : InSub (2 * r + 2) p) : p ≠ 2 * r + 1 := by
  intro he
  have := h.le
  omega

theorem InSub.child_closed {r i : Nat} (hpar : InSub r (parentIdx i)) (h1 : 1 ≤ i) :
    InSub r i := by
  rcases Nat.even_or_odd i with he | ho
  · obtain ⟨j, hj⟩ := he
    have hj' : i = 2 * (j - 1) + 2 := by omega
    rw [hj']
    refine InSub.right ?_
    rw [show j - 1 = parentIdx i from by unfold parentIdx; omega]
    exact hpar
  · obtain ⟨j, hj⟩ := ho
    have hj' : i = 2 * j + 1 := by omega
    rw [hj']
    refine InSub.left ?_
    rw [show j = parentIdx i from by unfold parentIdx; omega]
    exact hpar

/-! ## One step of `shift_down`, characterised by the raw comparator
outcomes -/

theorem shift_down_step_norc {lt : α → α → Bool} {base : Nat} (fuel : Nat) {l : List α}
    {root e : Nat} {rv lv : α} (hg : 2 * root < e) (hrc : ¬ 2 * root + 2 ≤ e)
    (hrv : l[base + root]? = some rv) (hlv : l[base + (2 * root + 1)]? = some lv) :
    (lt rv lv = false ∧ shift_down lt base (fuel + 1) l root e = some l) ∨
    (lt rv lv = true ∧ ∃ l2, swapC l (base + root) (base + (2 * root + 1)) = some l2 ∧
      shift_down lt base (fuel + 1) l root e = shift_down lt base fuel l2 (2 * root + 1) e) := by
  have hi : base + root < l.length := (List.getElem?_eq_some_iff.mp hrv).1
  have hj : base + (2 * root + 1) < l.length := (List.getElem?_eq_some_iff.mp hlv).1
  by_cases h1 : lt rv lv = true
  · right
    obtain ⟨l2, hl2, _⟩ := swapC_spec hi hj
    refine ⟨h1, l2, hl2, ?_⟩
    simp only [shift_down, if_pos hg, Option.bind_eq_bind, hrv, Option.some_bind, hlv,
      if_pos h1, if_neg hrc, if_neg (show ¬ 2 * root + 1 = root by omega), hl2]
  · left
    rw [Bool.not_eq_true] at h1
    refine ⟨h1, ?_⟩
    simp only [shift_down, if_pos hg, Option.bind_eq_bind, hrv, Option.some_bind, hlv,
      Bool.false_eq_true, if_neg (show ¬ lt rv lv = true by simp [h1]), if_neg hrc,
      if_true]

theorem shift_down_step_rc {lt : α → α → Bool} {base : Nat} (fuel : Nat) {l : List α}
    {root e : Nat} {rv lv rcv : α} (hg : 2 * root < e) (hrc : 2 * root + 2 ≤ e)
    (hrv : l[base + root]? = some rv) (hlv : l[base + (2 * root + 1)]? = some lv)
    (hrcv : l[base + (2 * root + 2)]? = some rcv) :
    (lt rv lv = false ∧ lt rv rcv = false ∧
      shift_down lt base (fuel + 1) l root e = some l) ∨
    (∃ s l2, swapC l (base + root) (base + s) = some l2 ∧
      shift_down lt base (fuel + 1) l root e = shift_down lt base fuel l2 s e ∧
      ((s = 2 * root + 1 ∧ lt rv lv = true ∧ lt lv rcv = false) ∨
       (s = 2 * root + 2 ∧ lt rv lv = true ∧ lt lv rcv = true) ∨
       (s = 2 * root + 2 ∧ lt rv lv = false ∧ lt rv rcv = true))) := by
  have hi : base + root < l.length := (List.getElem?_eq_some_iff.mp hrv).1
  have hj : base + (2 * root + 1) < l.length := (List.getElem?_eq_some_iff.mp hlv).1
  have hk : base + (2 * root + 2) < l.length := (List.getElem?_eq_some_iff.mp hrcv).1
  by_cases h1 : lt rv lv = true
  · by_cases h2 : lt lv rcv = true
    · -- s1 = left, s = right
      right
      obtain ⟨l2, hl2, _⟩ := swapC_spec hi hk
      refine ⟨2 * root + 2, l2, hl2, ?_, Or.inr (Or.inl ⟨rfl, h1, h2⟩)⟩
      simp only [shift_down, if_pos hg, Option.bind_eq_bind, hrv, Option.some_bind, hlv,
        if_pos h1, if_pos hrc, hrcv, if_pos h2,
        if_neg (show ¬ 2 * root + 2 = root by omega), hl2]
    · -- s1 = left, s = left
      right
      rw [Bool.not_eq_true] at h2
      obtain ⟨l2, hl2, _⟩ := swapC_spec hi hj
      refine ⟨2 * root + 1, l2, hl2, ?_, Or.inl ⟨rfl, h1, h2⟩⟩
      simp only [shift_down, if_pos hg, Option.bind_eq_bind, hrv, Option.some_bind, hlv,
        if_pos h1, if_pos hrc, hrcv,
        if_neg (show ¬ lt lv rcv = true by simp [h2]),
        if_neg (show ¬ 2 * root + 1 = root by omega), hl2]
  · rw [Bool.not_eq_true] at h1
    by_cases h2 : lt rv rcv = true
    · -- s1 = root, s = right
      right
      obtain ⟨l2, hl2, _⟩ := swapC_spec hi hk
      refine ⟨2 * root + 2, l2, hl2, ?_, Or.inr (Or.inr ⟨rfl, h1, h2⟩)⟩
      simp only [shift_down, if_pos hg, Option.bind_eq_bind, hrv, Option.some_bind, hlv,
        if_neg (show ¬ lt rv lv = true by simp [h1]), if_pos hrc, hrcv, if_pos h2,
        if_neg (show ¬ 2 * root + 2 = root by omega), hl2]
    · -- s1 = root, s = root: the root already holds the largest element
      left
      rw [Bool.not_eq_true] at h2
      refine ⟨h1, h2, ?_⟩
      simp only [shift_down, if_pos hg, Option.bind_eq_bind, hrv, Option.some_bind, hlv,
        if_neg (show ¬ lt rv lv = true by simp [h1]), if_pos hrc, hrcv,
        if_neg (show ¬ lt rv rcv = true by simp [h2]), if_true]

theorem InSub.trans {a b c : Nat} (h1 : InSub a b) (h2 : InSub b c) : InSub a c := by
  induction h2 with
  | refl => exact h1
  | left _ ih => exact InSub.left ih
  | right _ ih => exact InSub.right ih

theorem parentIdx_inv {i root : Nat} (h1 : 1 ≤ i) (h : parentIdx i = root) :
    i = 2 * root + 1 ∨ i = 2 * root + 2 := by
  unfold parentIdx at h
  omega

theorem EdgeOK.congr {lt : α → α → Bool} {l l' : List α} {base i : Nat}
    (h1 : l'[base + parentIdx i]? = l[base + parentIdx i]?)
    (h2 : l'[base + i]? = l[base + i]?) (h : EdgeOK lt l base i) :
    EdgeOK lt l' base i := by
  intro x y hx hy
  exact h x y (h1 ▸ hx) (h2 ▸ hy)

/-- In a region whose subtree below `s` is in heap order, the value at `s`
is not less than any value in the subtree of `s`. -/
theorem heap_chain {lt : α → α → Bool} (hsw : IsSWO lt) {l : List α} {base e s : Nat}
    (hb : base + e < l.length)
    (hsub : ∀ i, 1 ≤ i → i ≤ e → InSub s i → i ≠ s → EdgeOK lt l base i) :
    ∀ q, InSub s q → q ≤ e →
      ∀ x y, l[base + s]? = some x → l[base + q]? = some y → lt x y = false := by
  intro q hq
  induction hq with
  | refl =>
    intro _ x y hx hy
    rw [hx] at hy
    cases hy
    exact hsw.irrefl x
  | @left i hi ih =>
    intro hqe x y hx hy
    have hile : s ≤ i := hi.le
    have hie : i ≤ e := by omega
    have hiv : l[base + i]? = some l[base + i] := List.getElem?_eq_getElem (by omega)
    have hedge : EdgeOK lt l base (2 * i + 1) :=
      hsub (2 * i + 1) (by omega) hqe (InSub.left hi) (by omega)
    have h1 : lt l[base + i] y = false := by
      apply hedge
      · rw [show parentIdx (2 * i + 1) = i from by unfold parentIdx; omega]
        exact hiv
      · exact hy
    exact hsw.nlt_trans _ _ _ (ih hie x l[base + i] hx hiv) h1
  | @right i hi ih =>
    intro hqe x y hx hy
    have hile : s ≤ i := hi.le
    have hie : i ≤ e := by omega
    have hiv : l[base + i]? = some l[base + i] := List.getElem?_eq_getElem (by omega)
    have hedge : EdgeOK lt l base (2 * i + 2) :=
      hsub (2 * i + 2) (by omega) hqe (InSub.right hi) (by omega)
    have h1 : lt l[base + i] y = false := by
      apply hedge
      · rw [show parentIdx (2 * i + 2) = i from by unfold parentIdx; omega]
        exact hiv
      · exact hy
    exact hsw.nlt_trans _ _ _ (ih hie x l[base + i] hx hiv) h1

theorem shift_down_total_perm (lt : α → α → Bool) (base : Nat) :
    ∀ (fuel : Nat) (l : List α) (root e : Nat),
      e + 1 - root ≤ fuel → root ≤ e → base + e < l.length →
      ∃ r, shift_down lt base fuel l root e = some r ∧ r.length = l.length ∧
        List.Perm r l := by
  intro fuel
  induction fuel with
  | zero => intro l root e hf hr _; omega
  | succ fuel ih =>
    intro l root e hf hre hb
    by_cases hg : 2 * root < e
    · have hrv : l[base + root]? = some l[base + root] :=
        List.getElem?_eq_getElem (by omega)
      have hlv : l[base + (2 * root + 1)]? = some l[base + (2 * root + 1)] :=
        List.getElem?_eq_getElem (by omega)
      by_cases hrc : 2 * root + 2 ≤ e
      · have hrcv : l[base + (2 * root + 2)]? = some l[base + (2 * root + 2)] :=
          List.getElem?_eq_getElem (by omega)
        rcases shift_down_step_rc fuel hg hrc hrv hlv hrcv with
          ⟨_, _, heq⟩ | ⟨s, l2, hsw2, heq, hcases⟩
        · exact ⟨l, heq, rfl, List.Perm.refl l⟩
        · have hs : 2 * root + 1 ≤ s ∧ s ≤ e := by
            rcases hcases with ⟨h, _⟩ | ⟨h, _⟩ | ⟨h, _⟩ <;> omega
          obtain ⟨hp2, hl2len⟩ := swapC_perm hsw2
          obtain ⟨r, hr, hrlen, hrperm⟩ := ih l2 s e (by omega) (by omega) (by omega)
          exact ⟨r, heq.trans hr, by omega, hrperm.trans hp2⟩
      · rcases shift_down_step_norc fuel hg hrc hrv hlv with
          ⟨_, heq⟩ | ⟨_, l2, hsw2, heq⟩
        · exact ⟨l, heq, rfl, List.Perm.refl l⟩
        · obtain ⟨hp2, hl2len⟩ := swapC_perm hsw2
          obtain ⟨r, hr, hrlen, hrperm⟩ :=
            ih l2 (2 * root + 1) e (by omega) (by omega) (by omega)
          exact ⟨r, heq.trans hr, by omega, hrperm.trans hp2⟩
    · exact ⟨l, by simp [shift_down, hg], rfl, List.Perm.refl l⟩

/-- Full specification of `shift_down` under a strict weak ordering:
given that every edge strictly inside the subtree of `root` (i.e. not
out of `root` itself) is in heap order, the call succeeds, permutes the
slice, touches only subtree cells, moves only subtree values around,
and re-establishes heap order on the whole subtree. -/
theorem shift_down_spec {lt : α → α → Bool} (hsw : IsSWO lt) {base : Nat} :
    ∀ (fuel : Nat) (l : List α) (root e : Nat),
      e + 1 - root ≤ fuel → root ≤ e → base + e < l.length →
      (∀ i, 1 ≤ i → i ≤ e → InSub root i → i ≠ root → parentIdx i ≠ root →
        EdgeOK lt l base i) →
      ∃ r, shift_down lt base fuel l root e = some r ∧ r.length = l.length ∧
        List.Perm r l ∧
        (∀ k, (∀ p, InSub root p → p ≤ e → k ≠ base + p) → r[k]? = l[k]?) ∧
        (∀ p, InSub root p → p ≤ e →
          ∃ q, InSub root q ∧ q ≤ e ∧ r[base + p]? = l[base + q]?) ∧
        (∀ i, 1 ≤ i → i ≤ e → InSub root i → i ≠ root → EdgeOK lt r base i) := by
  intro fuel
  induction fuel with
  | zero => intro l root e hf hre hb hsub; omega
  | succ fuel ih =>
    intro l root e hf hre hb hsub
    by_cases hg : 2 * root < e
    case neg =>
      refine ⟨l, by simp [shift_down, hg], rfl, List.Perm.refl l, fun _ _ => rfl,
        fun p hp hpe => ⟨p, hp, hpe, rfl⟩, ?_⟩
      intro i h1 hie hin hir
      rcases hin.ge_child with h | h
      · exact absurd h hir
      · exact absurd (by omega : 2 * root < e) hg
    case pos =>
    have hrv : l[base + root]? = some l[base + root] :=
      List.getElem?_eq_getElem (by omega)
    have hlv : l[base + (2 * root + 1)]? = some l[base + (2 * root + 1)] :=
      List.getElem?_eq_getElem (by omega)
    -- the selection facts, uniform over the two child-arity cases:
    -- either no swap happens and the root beats every child in the heap,
    -- or we swap with a child `s` that the root is less than and that is
    -- not less than the other child (if any).
    have hmain :
        (shift_down lt base (fuel + 1) l root e = some l ∧
          (∀ c, (c = 2 * root + 1 ∨ c = 2 * root + 2) → c ≤ e →
            ∀ z, l[base + c]? = some z → lt l[base + root] z = false)) ∨
        (∃ s l2 sv, (s = 2 * root + 1 ∨ s = 2 * root + 2) ∧ s ≤ e ∧
          swapC l (base + root) (base + s) = some l2 ∧
          shift_down lt base (fuel + 1) l root e = shift_down lt base fuel l2 s e ∧
          l[base + s]? = some sv ∧ lt l[base + root] sv = true ∧
          (∀ c, (c = 2 * root + 1 ∨ c = 2 * root + 2) → c ≤ e → c ≠ s →
            ∀ z, l[base + c]? = some z → lt sv z = false)) := by
      by_cases hrc : 2 * root + 2 ≤ e
      · have hrcv : l[base + (2 * root + 2)]? = some l[base + (2 * root + 2)] :=
          List.getElem?_eq_getElem (by omega)
        rcases shift_down_step_rc fuel hg hrc hrv hlv hrcv with
          ⟨hA, hB, heq⟩ | ⟨s, l2, hsw2, heq, hcases⟩
        · refine Or.inl ⟨heq, ?_⟩
          intro c hc hce z hz
          rcases hc with rfl | rfl
          · rw [hlv] at hz; cases hz; exact hA
          · rw [hrcv] at hz; cases hz; exact hB
        · refine Or.inr ⟨s, l2, ?_⟩
          rcases hcases with ⟨rfl, h1, h2⟩ | ⟨rfl, h1, h2⟩ | ⟨rfl, h1, h2⟩
          · -- s = left, the right child is not larger than the left
            refine ⟨l[base + (2 * root + 1)], Or.inl rfl, by omega, hsw2, heq, hlv, h1, ?_⟩
            intro c hc hce hcs z hz
            have hcr : c = 2 * root + 2 := by rcases hc with rfl | rfl <;> omega
            subst hcr
            rw [hrcv] at hz; cases hz
            exact h2
          · -- s = right, reached via the left child: root < left < right
            refine ⟨l[base + (2 * root + 2)], Or.inr rfl, by omega, hsw2, heq, hrcv,
              hsw.lt_trans _ _ _ h1 h2, ?_⟩
            intro c hc hce hcs z hz
            have hcr : c = 2 * root + 1 := by rcases hc with rfl | rfl <;> omega
            subst hcr
            rw [hlv] at hz; cases hz
            exact hsw.asymm _ _ h2
          · -- s = right, the left child is not larger than the root
            refine ⟨l[base + (2 * root + 2)], Or.inr rfl, by omega, hsw2, heq, hrcv, h2, ?_⟩
            intro c hc hce hcs z hz
            have hcr : c = 2 * root + 1 := by rcases hc with rfl | rfl <;> omega
            subst hcr
            rw [hlv] at hz; cases hz
            cases hzz : lt l[base + (2 * root + 2)] l[base + (2 * root + 1)] with
            | false => rfl
            | true => rw [hsw.lt_trans _ _ _ h2 hzz] at h1; cases h1
      · rcases shift_down_step_norc fuel hg hrc hrv hlv with ⟨hA, heq⟩ | ⟨h1, l2, hsw2, heq⟩
        · refine Or.inl ⟨heq, ?_⟩
          intro c hc hce z hz
          have hcl : c = 2 * root + 1 := by rcases hc with rfl | rfl <;> omega
          subst hcl
          rw [hlv] at hz; cases hz
          exact hA
        · refine Or.inr ⟨2 * root + 1, l2, l[base + (2 * root + 1)], Or.inl rfl, by omega,
            hsw2, heq, hlv, h1, ?_⟩
          intro c hc hce hcs z hz
          rcases hc with rfl | rfl
          · exact absurd rfl hcs
          · omega
    rcases hmain with ⟨heq, hroot_max⟩ | ⟨s, l2, sv, hs, hse, hsw2, heq, hsv, hlt_rs, hoc⟩
    · -- no swap: the subtree was already a heap below root, and the root
      -- now beats its children
      refine ⟨l, heq, rfl, List.Perm.refl l, fun _ _ => rfl,
        fun p hp hpe => ⟨p, hp, hpe, rfl⟩, ?_⟩
      intro i h1 hie hin hir
      by_cases hpar : parentIdx i = root
      · intro x y hx hy
        rw [hpar, hrv] at hx
        cases hx
        exact hroot_max i (parentIdx_inv h1 hpar) hie y hy
      · exact hsub i h1 hie hin hir hpar
    · -- swap with child s and recurse there
      have hs_gt : root < s := by rcases hs with rfl | rfl <;> omega
      have hsub_root_s : InSub root s := by
        rcases hs with rfl | rfl
        · exact InSub.left InSub.refl
        · exact InSub.right InSub.refl
      obtain ⟨x2, y2, hx2, hy2, hl2⟩ := swapC_eq_some hsw2
      have hl2len : l2.length = l.length := by rw [hl2]; simp
      have hl2perm : List.Perm l2 l := by rw [hl2]; exact set_set_swap_perm hx2 hy2
      -- pointwise description of l2
      have hl2_root : l2[base + root]? = l[base + s]? := by
        rw [hl2]
        rw [List.getElem?_set_ne (by omega),
          List.getElem?_set_self ((List.getElem?_eq_some_iff.mp hx2).1), hy2]
      have hl2_s : l2[base + s]? = l[base + root]? := by
        rw [hl2, List.getElem?_set_self
          (by rw [List.length_set]; exact (List.getElem?_eq_some_iff.mp hy2).1), hx2]
      have hl2_other : ∀ k, k ≠ base + root → k ≠ base + s → l2[k]? = l[k]? := by
        intro k hk1 hk2
        rw [hl2, List.getElem?_set_ne (fun h => hk2 h.symm),
          List.getElem?_set_ne (fun h => hk1 h.symm)]
      -- the subtree of s is still a heap strictly below s in l2
      have hsub2 : ∀ i, 1 ≤ i → i ≤ e → InSub s i → i ≠ s → parentIdx i ≠ s →
          EdgeOK lt l2 base i := by
        intro i h1 hie hin hins hpars
        have hige : 2 * s + 1 ≤ i := by
          rcases hin.ge_child with h | h
          · exact absurd h hins
          · exact h
        have hparin : InSub s (parentIdx i) ∧ parentIdx i < i := hin.parent hins
        have hparge : parentIdx i = s ∨ 2 * s + 1 ≤ parentIdx i := hparin.1.ge_child
        have hparge' : 2 * s + 1 ≤ parentIdx i := by
          rcases hparge with h | h
          · exact absurd h hpars
          · exact h
        refine EdgeOK.congr (hl2_other _ (by omega) (by omega))
          (hl2_other _ (by omega) (by omega)) ?_
        exact hsub i h1 hie (hsub_root_s.trans hin) (by omega) (by omega)
      obtain ⟨r, hr, hrlen, hrperm, hrframe, hrorigin, hrheap⟩ :=
        ih l2 s e (by omega) (by omega) (by omega) hsub2
      refine ⟨r, heq.trans hr, by omega, hrperm.trans hl2perm, ?_, ?_, ?_⟩
      · -- frame: only subtree cells of root change
        intro k hk
        have hk_root : k ≠ base + root := hk root InSub.refl (by omega)
        have hk_s : k ≠ base + s := hk s hsub_root_s hse
        rw [hrframe k (fun p hp hpe => hk p (hsub_root_s.trans hp) hpe)]
        exact hl2_other k hk_root hk_s
      · -- value origin: subtree values only move inside the subtree
        intro p hp hpe
        by_cases hps : InSub s p
        · obtain ⟨q, hq, hqe, hqv⟩ := hrorigin p hps hpe
          by_cases hqs : q = s
          · subst hqs
            exact ⟨root, InSub.refl, by omega, by rw [hqv, hl2_s]⟩
          · have : 2 * s + 1 ≤ q := by
              rcases hq.ge_child with h | h
              · exact absurd h hqs
              · exact h
            exact ⟨q, hsub_root_s.trans hq, hqe, by
              rw [hqv, hl2_other _ (by omega) (by omega)]⟩
        · have hframe_p : r[base + p]? = l2[base + p]? :=
            hrframe _ (fun p' hp' hpe' => by
              intro hcon
              have : p = p' := by omega
              exact hps (this ▸ hp'))
          by_cases hpr : p = root
          · subst hpr
            exact ⟨s, hsub_root_s, hse, by rw [hframe_p, hl2_root]⟩
          · refine ⟨p, hp, hpe, ?_⟩
            rw [hframe_p, hl2_other _ (by omega) (fun h => hps (by
              have : p = s := by omega
              exact this ▸ InSub.refl))]
      · -- the whole subtree of root is now a heap
        intro i h1 hie hin hir
        by_cases hins : InSub s i
        · by_cases his : i = s
          · -- the repaired edge root → s
            subst his
            intro x y hx hy
            have hpar_s : parentIdx i = root := by
              rcases hs with rfl | rfl <;> (unfold parentIdx; omega)
            rw [hpar_s] at hx
            have hx_frame : r[base + root]? = l2[base + root]? :=
              hrframe _ (fun p' hp' hpe' => by
                have := hp'.le
                omega)
            rw [hx_frame, hl2_root, hsv] at hx
            cases hx
            obtain ⟨q, hq, hqe, hqv⟩ := hrorigin i InSub.refl hie
            rw [hqv] at hy
            by_cases hqs : q = i
            · subst hqs
              rw [hl2_s, hrv] at hy
              cases hy
              exact hsw.asymm _ _ hlt_rs
            · have hqge : 2 * i + 1 ≤ q := by
                rcases hq.ge_child with h | h
                · exact absurd h hqs
                · exact h
              rw [hl2_other _ (by omega) (by omega)] at hy
              -- sv is not less than any value in the old subtree of s
              have := heap_chain hsw (l := l) (by omega)
                (fun i' h1' hie' hin' hins' => hsub i' h1' hie' (hsub_root_s.trans hin')
                  (by have := hin'.le; omega)
                  (by
                    have hpar' := hin'.parent hins'
                    have := hpar'.1.le
                    have hpge : parentIdx i' = i ∨ 2 * i + 1 ≤ parentIdx i' :=
                      hpar'.1.ge_child
                    omega)) q hq hqe sv y hsv hy
              exact this
          · exact hrheap i h1 hie hins his
        · by_cases hpar : parentIdx i = root
          · -- the other child of root
            have hioc : i = 2 * root + 1 ∨ i = 2 * root + 2 := parentIdx_inv h1 hpar
            have hine : i ≠ s := fun h => hins (h ▸ InSub.refl)
            intro x y hx hy
            rw [hpar] at hx
            have hx_frame : r[base + root]? = l2[base + root]? :=
              hrframe _ (fun p' hp' hpe' => by
                have := hp'.le
                omega)
            rw [hx_frame, hl2_root, hsv] at hx
            cases hx
            have hy_frame : r[base + i]? = l2[base + i]? :=
              hrframe _ (fun p' hp' hpe' hcon => by
                have : i = p' := by omega
                exact hins (this ▸ hp'))
            rw [hy_frame, hl2_other _ (by omega) (by omega)] at hy
            exact hoc i hioc hie hine y hy
          · -- an edge not involving root or the subtree of s: untouched
            have hparin : InSub root (parentIdx i) ∧ parentIdx i < i := hin.parent hir
            have hparns : ¬ InSub s (parentIdx i) := fun h =>
              hins (InSub.child_closed (r := s) h h1)
            have hpar_ne_s : parentIdx i ≠ s := fun h => hparns (h ▸ InSub.refl)
            have hi_ne_s : i ≠ s := fun h => hins (h ▸ InSub.refl)
            refine EdgeOK.congr ?_ ?_ (hsub i h1 hie hin hir hpar)
            · rw [hrframe _ (fun p' hp' hpe' hcon => by
                have : parentIdx i = p' := by omega
                exact hparns (this ▸ hp')), hl2_other _ (by omega) (by omega)]
            · rw [hrframe _ (fun p' hp' hpe' hcon => by
                have : i = p' := by omega
                exact hins (this ▸ hp')), hl2_other _ (by omega) (by omega)]

/-! ## Heapify -/

theorem heapFrom_sub {lt : α → α → Bool} {l : List α} {base s e : Nat}
    (hpre : HeapFrom lt l base (s + 1) e) :
    ∀ i, 1 ≤ i → i ≤ e → InSub s i → i ≠ s → parentIdx i ≠ s → EdgeOK lt l base i := by
  intro i h1 hie hin his hpars
  apply hpre i h1 hie
  have hp := (hin.parent his).1
  rcases hp.ge_child with h | h
  · exact absurd h hpars
  · omega

theorem heapFrom_step {lt : α → α → Bool} {base e s : Nat} {l r : List α}
    (hpre : HeapFrom lt l base (s + 1) e)
    (hframe : ∀ k, (∀ p, InSub s p → p ≤ e → k ≠ base + p) → r[k]? = l[k]?)
    (hheap : ∀ i, 1 ≤ i → i ≤ e → InSub s i → i ≠ s → EdgeOK lt r base i) :
    HeapFrom lt r base s e := by
  intro i h1 hie hpar
  by_cases hin : InSub s i
  · by_cases his : i = s
    · subst his
      have : parentIdx i < i := by unfold parentIdx; omega
      omega
    · exact hheap i h1 hie hin his
  · have hparns : ¬ InSub s (parentIdx i) := fun h => hin (InSub.child_closed h h1)
    refine EdgeOK.congr ?_ ?_ (hpre i h1 hie ?_)
    · refine hframe _ (fun p hp hpe hcon => hparns ?_)
      rw [show parentIdx i = p from by omega]
      exact hp
    · refine hframe _ (fun p hp hpe hcon => hin ?_)
      rw [show i = p from by omega]
      exact hp
    · have hpar_ne : parentIdx i ≠ s := fun h => hparns (h ▸ InSub.refl)
      omega

theorem heapifyLoop_spec {lt : α → α → Bool} (hsw : IsSWO lt) {base e : Nat} :
    ∀ (s : Nat) (l : List α), s ≤ e → base + e < l.length →
      HeapFrom lt l base (s + 1) e →
      ∃ r, heapifyLoop lt base e s l = some r ∧ r.length = l.length ∧
        List.Perm r l ∧ HeapFrom lt r base 0 e := by
  intro s
  induction s with
  | zero =>
    intro l hse hb hpre
    obtain ⟨r, hr, hrlen, hrperm, hrframe, _, hrheap⟩ :=
      shift_down_spec hsw (e + 1) l 0 e (by omega) (by omega) hb (heapFrom_sub hpre)
    exact ⟨r, hr, hrlen, hrperm, heapFrom_step hpre hrframe hrheap⟩
  | succ s ih =>
    intro l hse hb hpre
    obtain ⟨l2, hl2, hl2len, hl2perm, hl2frame, _, hl2heap⟩ :=
      shift_down_spec hsw (e + 1) l (s + 1) e (by omega) (by omega) hb (heapFrom_sub hpre)
    have hstep : HeapFrom lt l2 base (s + 1) e := heapFrom_step hpre hl2frame hl2heap
    obtain ⟨r, hr, hrlen, hrperm, hrheap⟩ := ih l2 (by omega) (by omega) hstep
    refine ⟨r, ?_, by omega, hrperm.trans hl2perm, hrheap⟩
    simp only [heapifyLoop, Option.bind_eq_bind, hl2, Option.some_bind]
    exact hr

theorem heapify_spec {lt : α → α → Bool} (hsw : IsSWO lt) {base len : Nat} (l : List α)
    (hb : base + len ≤ l.length) (h1 : 1 ≤ len) :
    ∃ r, heapify lt l base len = some r ∧ r.length = l.length ∧
      List.Perm r l ∧ HeapFrom lt r base 0 (len - 1) := by
  have hpre : HeapFrom lt l base ((len - 2) / 2 + 1) (len - 1) := by
    intro i hi1 hie hpar
    unfold parentIdx at hpar
    omega
  exact heapifyLoop_spec hsw ((len - 2) / 2) l (by omega) (by omega) hpre

/-! ## The sort-down phase -/

theorem sortDownLoop_spec {lt : α → α → Bool} (hsw : IsSWO lt) {base m : Nat} :
    ∀ (e : Nat) (l : List α), e < m → base + m ≤ l.length →
      HeapFrom lt l base 0 e →
      (∀ k x y, e < k → k + 1 < m → l[base + k]? = some x →
        l[base + (k + 1)]? = some y → lt y x = false) →
      (∀ i j x y, i ≤ e → e < j → j < m → l[base + i]? = some x →
        l[base + j]? = some y → lt y x = false) →
      ∃ r, sortDownLoop lt base e l = some r ∧ r.length = l.length ∧ List.Perm r l ∧
        (∀ k x y, k + 1 < m → r[base + k]? = some x → r[base + (k + 1)]? = some y →
          lt y x = false) := by
  intro e
  induction e with
  | zero =>
    intro l hm hb hheap hS2 hS3
    refine ⟨l, rfl, rfl, List.Perm.refl l, ?_⟩
    intro k x y hk hx hy
    cases k with
    | zero => exact hS3 0 1 x y (by omega) (by omega) (by omega) hx hy
    | succ k' => exact hS2 (k' + 1) x y (by omega) hk hx hy
  | succ e ih =>
    intro l hm hb hheap hS2 hS3
    -- swap the maximum (at the root) with the last heap cell
    have hbr : base < l.length := by omega
    have hbe : base + (e + 1) < l.length := by omega
    obtain ⟨l2, hl2, hl2len, hl2perm, hl2_hi, hl2_lo, hl2_other⟩ := swapC_spec hbe hbr
    have hrootv : l[base]? = some l[base] := List.getElem?_eq_getElem hbr
    -- the old root is a maximum of the old heap region
    have hroot_max : ∀ q, q ≤ e + 1 → ∀ y, l[base + q]? = some y →
        lt l[base] y = false := by
      intro q hq y hy
      have := heap_chain hsw (l := l) (s := 0) (by omega)
        (fun i' h1' hie' _ hne' => hheap i' h1' hie' (by omega))
        q (InSub.zero q) hq l[base] y (by simp) hy
      exact this
    -- repair the shrunken heap
    have hsub2 : ∀ i, 1 ≤ i → i ≤ e → InSub 0 i → i ≠ 0 → parentIdx i ≠ 0 →
        EdgeOK lt l2 base i := by
      intro i h1 hie _ hi0 hpar0
      have hparlt : parentIdx i < i := by unfold parentIdx; omega
      refine EdgeOK.congr ?_ ?_ (hheap i h1 (by omega) (by omega))
      · exact hl2_other _ (by omega) (by omega)
      · exact hl2_other _ (by omega) (by omega)
    obtain ⟨l3, hl3, hl3len, hl3perm, hl3frame, hl3origin, hl3heap⟩ :=
      shift_down_spec hsw (e + 1) l2 0 e (by omega) (by omega) (by omega) hsub2
    -- invariants for the recursive call
    have hheap3 : HeapFrom lt l3 base 0 e := by
      intro i h1 hie _
      exact hl3heap i h1 hie (InSub.zero i) (by omega)
    have huntouched : ∀ k, e < k → l3[base + k]? = l2[base + k]? := by
      intro k hk
      exact hl3frame _ (fun p hp hpe hcon => by omega)
    have hS2' : ∀ k x y, e < k → k + 1 < m → l3[base + k]? = some x →
        l3[base + (k + 1)]? = some y → lt y x = false := by
      intro k x y hk hkm hx hy
      rw [huntouched k hk] at hx
      rw [huntouched (k + 1) (by omega)] at hy
      rcases Nat.eq_or_lt_of_le hk with hk1 | hk1
      · -- k = e + 1 : the pair (e+1, e+2)
        have hke : k = e + 1 := by omega
        subst hke
        rw [hl2_hi, hrootv] at hx
        cases hx
        rw [hl2_other _ (by omega) (by omega)] at hy
        exact hS3 0 (e + 1 + 1) l[base] y (by omega) (by omega) (by omega)
          (by simp) hy
      · -- a pair fully inside the old sorted suffix
        rw [hl2_other _ (by omega) (by omega)] at hx
        rw [hl2_other _ (by omega) (by omega)] at hy
        exact hS2 k x y (by omega) hkm hx hy
    have hS3' : ∀ i j x y, i ≤ e → e < j → j < m → l3[base + i]? = some x →
        l3[base + j]? = some y → lt y x = false := by
      intro i j x y hi hj hjm hx hy
      -- where does the value now at heap cell i come from?
      obtain ⟨q, _, hqe, hqv⟩ := hl3origin i (InSub.zero i) hi
      rw [hqv] at hx
      rw [huntouched j hj] at hy
      rcases Nat.eq_or_lt_of_le hj with hj1 | hj1
      · -- j = e + 1 holds the old maximum
        have hje : j = e + 1 := by omega
        subst hje
        rw [hl2_hi, hrootv] at hy
        cases hy
        by_cases hq0 : q = 0
        · subst hq0
          simp only [Nat.add_zero] at hx
          rw [hl2_lo] at hx
          exact hroot_max (e + 1) (by omega) x hx
        · rw [hl2_other _ (by omega) (by omega)] at hx
          exact hroot_max q (by omega) x hx
      · rw [hl2_other _ (by omega) (by omega)] at hy
        by_cases hq0 : q = 0
        · subst hq0
          simp only [Nat.add_zero] at hx
          rw [hl2_lo] at hx
          exact hS3 (e + 1) j x y (by omega) (by omega) hjm hx hy
        · rw [hl2_other _ (by omega) (by omega)] at hx
          exact hS3 q j x y (by omega) (by omega) hjm hx hy
    obtain ⟨r, hr, hrlen, hrperm, hradj⟩ := ih l3 (by omega) (by omega) hheap3 hS2' hS3'
    refine ⟨r, ?_, by omega, (hrperm.trans hl3perm).trans hl2perm, hradj⟩
    simp only [sortDownLoop, Option.bind_eq_bind, hl2, Option.some_bind, hl3]
    exact hr

/-! ## Heap sort: top-level facts -/

theorem heapsort_impl_spec {lt : α → α → Bool} (hsw : IsSWO lt) (base len : Nat)
    (l : List α) (hb : base + len ≤ l.length) (h1 : 1 ≤ len) :
    ∃ r, heapsort_impl lt l base len = some r ∧ r.length = l.length ∧
      List.Perm r l ∧
      (∀ k x y, k + 1 < len → r[base + k]? = some x → r[base + (k + 1)]? = some y →
        lt y x = false) := by
  obtain ⟨l2, hl2, hl2len, hl2perm, hl2heap⟩ := heapify_spec hsw l hb h1
  obtain ⟨r, hr, hrlen, hrperm, hradj⟩ := sortDownLoop_spec (m := len) hsw (len - 1) l2
    (by omega) (by omega) hl2heap
    (fun k x y hk hkm _ _ => by omega)
    (fun i j x y hi hj hjm _ _ => by omega)
  refine ⟨r, ?_, by omega, hrperm.trans hl2perm, fun k x y hk hx hy => hradj k x y hk hx hy⟩
  simp only [heapsort_impl, Option.bind_eq_bind, hl2, Option.some_bind]
  exact hr

theorem heapifyLoop_total (lt : α → α → Bool) (base e : Nat) :
    ∀ (s : Nat) (l : List α), s ≤ e → base + e < l.length →
      ∃ r, heapifyLoop lt base e s l = some r ∧ r.length = l.length ∧
        List.Perm r l := by
  intro s
  induction s with
  | zero =>
    intro l hse hb
    exact shift_down_total_perm lt base (e + 1) l 0 e (by omega) (by omega) hb
  | succ s ih =>
    intro l hse hb
    obtain ⟨l2, hl2, hl2len, hl2perm⟩ :=
      shift_down_total_perm lt base (e + 1) l (s + 1) e (by omega) (by omega) hb
    obtain ⟨r, hr, hrlen, hrperm⟩ := ih l2 (by omega) (by omega)
    refine ⟨r, ?_, by omega, hrperm.trans hl2perm⟩
    simp only [heapifyLoop, Option.bind_eq_bind, hl2, Option.some_bind]
    exact hr

theorem sortDownLoop_total (lt : α → α → Bool) (base : Nat) :
    ∀ (e : Nat) (l : List α), base + e < l.length →
      ∃ r, sortDownLoop lt base e l = some r ∧ r.length = l.length ∧
        List.Perm r l := by
  intro e
  induction e with
  | zero => exact fun l _ => ⟨l, rfl, rfl, List.Perm.refl l⟩
  | succ e ih =>
    intro l hb
    obtain ⟨l2, hl2, hl2len, hl2perm, _⟩ := swapC_spec
      (show base + (e + 1) < l.length from hb) (show base < l.length from by omega)
    obtain ⟨l3, hl3, hl3len, hl3perm⟩ :=
      shift_down_total_perm lt base (e + 1) l2 0 e (by omega) (by omega) (by omega)
    obtain ⟨r, hr, hrlen, hrperm⟩ := ih l3 (by omega)
    refine ⟨r, ?_, by omega, (hrperm.trans hl3perm).trans hl2perm⟩
    simp only [sortDownLoop, Option.bind_eq_bind, hl2, Option.some_bind, hl3]
    exact hr

theorem heapsort_impl_total (lt : α → α → Bool) (base len : Nat) (l : List α)
    (hb : base + len ≤ l.length) (h1 : 1 ≤ len) :
    ∃ r, heapsort_impl lt l base len = some r ∧ r.length = l.length ∧
      List.Perm r l := by
  obtain ⟨l2, hl2, hl2len, hl2perm⟩ :=
    heapifyLoop_total lt base (len - 1) ((len - 2) / 2) l (by omega) (by omega)
  obtain ⟨r, hr, hrlen, hrperm⟩ := sortDownLoop_total lt base (len - 1) l2 (by omega)
  refine ⟨r, ?_, by omega, hrperm.trans hl2perm⟩
  simp only [heapsort_impl, heapify, Option.bind_eq_bind, hl2, Option.some_bind]
  exact hr

theorem heapsort_by_total_perm (lt : α → α → Bool) (l : List α) :
    ∃ r, heapsort_by lt l = some r ∧ r.length = l.length ∧ List.Perm r l := by
  by_cases h0 : 0 < l.length
  · obtain ⟨r, hr, hrlen, hrperm⟩ := heapsort_impl_total lt 0 l.length l (by omega) (by omega)
    exact ⟨r, by simp [heapsort_by, h0, hr], hrlen, hrperm⟩
  · exact ⟨l, by simp [heapsort_by, h0], rfl, List.Perm.refl l⟩

theorem heapsort_by_sorted {lt : α → α → Bool} (hsw : IsSWO lt) (l : List α) :
    ∃ r, heapsort_by lt l = some r ∧ r.length = l.length ∧ List.Perm r l ∧
      AdjNondecr lt r := by
  by_cases h0 : 0 < l.length
  · obtain ⟨r, hr, hrlen, hrperm, hradj⟩ :=
      heapsort_impl_spec hsw 0 l.length l (by omega) (by omega)
    refine ⟨r, by simp [heapsort_by, h0, hr], hrlen, hrperm, ?_⟩
    intro k x y hx hy
    have hk1 : k + 1 < r.length := (List.getElem?_eq_some_iff.mp hy).1
    exact hradj k x y (by omega) (by simpa using hx) (by simpa using hy)
  · refine ⟨l, by simp [heapsort_by, h0], rfl, List.Perm.refl l, ?_⟩
    intro k x y hx _
    have := (List.getElem?_eq_some_iff.mp hx).1
    omega

/-! ## The partition scans -/

theorem scanUp_spec {lt : α → α → Bool} {l : List α} {v : α} :
    ∀ (fuel first : Nat), l.length - first ≤ fuel →
      ∀ s, first ≤ s → s < l.length → (∀ z, l[s]? = some z → lt z v = false) →
      ∃ f, scanUp lt l v first fuel = some f ∧ first ≤ f ∧ f ≤ s ∧
        (∀ z, l[f]? = some z → lt z v = false) ∧
        (∀ k, first ≤ k → k < f → ∀ z, l[k]? = some z → lt z v = true) := by
  intro fuel
  induction fuel with
  | zero => intro first hfuel s hs1 hs2 _; omega
  | succ fuel ih =>
    intro first hfuel s hs1 hs2 hs3
    have hflen : first < l.length := by omega
    have hread : l[first]? = some l[first] := List.getElem?_eq_getElem hflen
    by_cases hlt : lt l[first] v = true
    · have hsf : first ≠ s := by
        intro h
        subst h
        rw [hs3 l[first] hread] at hlt
        cases hlt
      obtain ⟨f, hf, hf1, hf2, hf3, hf4⟩ := ih (first + 1) (by omega) s (by omega) hs2 hs3
      refine ⟨f, ?_, by omega, hf2, hf3, ?_⟩
      · simp only [scanUp, Option.bind_eq_bind, hread, Option.some_bind, if_pos hlt]
        exact hf
      · intro k hk1 hk2 z hz
        rcases Nat.eq_or_lt_of_le hk1 with h | h
        · subst h
          rw [hread] at hz
          cases hz
          exact hlt
        · exact hf4 k h hk2 z hz
    · refine ⟨first, ?_, Nat.le_refl _, hs1, ?_, ?_⟩
      · simp only [scanUp, Option.bind_eq_bind, hread, Option.some_bind]
        rw [if_neg hlt]
      · intro z hz
        rw [hread] at hz
        cases hz
        simpa using hlt
      · intro k hk1 hk2 _ _
        omega

theorem scanDown_spec {lt : α → α → Bool} {l : List α} {v : α} :
    ∀ (last : Nat), last < l.length →
      ∀ t, t ≤ last → (∀ z, l[t]? = some z → lt v z = false) →
      ∃ g, scanDown lt l v last = some g ∧ t ≤ g ∧ g ≤ last ∧
        (∀ z, l[g]? = some z → lt v z = false) ∧
        (∀ k, g < k → k ≤ last → ∀ z, l[k]? = some z → lt v z = true) := by
  intro last
  induction last with
  | zero =>
    intro hlen t ht1 ht2
    have h0 : t = 0 := by omega
    subst h0
    have hread : l[0]? = some l[0] := List.getElem?_eq_getElem hlen
    have hstop : lt v l[0] = false := ht2 l[0] hread
    refine ⟨0, ?_, Nat.le_refl 0, Nat.le_refl 0, ht2, ?_⟩
    · simp only [scanDown, Option.bind_eq_bind, hread, Option.some_bind]
      rw [if_neg (by simp [hstop])]
    · intro k hk1 hk2 _ _
      omega
  | succ last ih =>
    intro hlen t ht1 ht2
    have hread : l[last + 1]? = some l[last + 1] := List.getElem?_eq_getElem hlen
    by_cases hlt : lt v l[last + 1] = true
    · have htne : t ≠ last + 1 := by
        intro h
        subst h
        rw [ht2 l[last + 1] hread] at hlt
        cases hlt
      obtain ⟨g, hg, hg1, hg2, hg3, hg4⟩ := ih (by omega) t (by omega) ht2
      refine ⟨g, ?_, hg1, by omega, hg3, ?_⟩
      · simp only [scanDown, Option.bind_eq_bind, hread, Option.some_bind, if_pos hlt]
        exact hg
      · intro k hk1 hk2 z hz
        rcases Nat.eq_or_lt_of_le hk2 with h | h
        · subst h
          rw [hread] at hz
          cases hz
          exact hlt
        · exact hg4 k hk1 (by omega) z hz
    · refine ⟨last + 1, ?_, ht1, Nat.le_refl _, ?_, ?_⟩
      · simp only [scanDown, Option.bind_eq_bind, hread, Option.some_bind]
        rw [if_neg hlt]
      · intro z hz
        rw [hread] at hz
        cases hz
        simpa using hlt
      · intro k hk1 hk2 _ _
        omega

/-! ## The Hoare partition loop -/

theorem partitionLoop_spec {lt : α → α → Bool}
    (hasym : ∀ a b, lt a b = true → lt b a = false) (pIdx last0 : Nat) :
    ∀ (fuel : Nat) (l : List α) (first last : Nat) (v : α),
      l.length + 1 - first ≤ fuel →
      pIdx < first → first ≤ last → last ≤ last0 → last0 ≤ l.length → 0 < last →
      l[pIdx]? = some v →
      (∃ s, first ≤ s ∧ s < last0 ∧ ∀ z, l[s]? = some z → lt z v = false) →
      (∃ t, t < last ∧ ∀ z, l[t]? = some z → lt v z = false) →
      (∀ k, pIdx < k → k < first → ∀ z, l[k]? = some z → lt v z = false) →
      (∀ k, last ≤ k → k < last0 → ∀ z, l[k]? = some z → lt z v = false) →
      ∃ r b, partitionLoop lt pIdx fuel l first last = some (r, b) ∧
        r.length = l.length ∧ List.Perm r l ∧
        first ≤ b ∧ b < last0 ∧
        r[pIdx]? = l[pIdx]? ∧
        (∀ k, pIdx < k → k < b → ∀ z, r[k]? = some z → lt v z = false) ∧
        (∀ k, b ≤ k → k < last0 → ∀ z, r[k]? = some z → lt z v = false) ∧
        (∀ k, k ≤ pIdx → r[k]? = l[k]?) ∧ (∀ k, last0 ≤ k → r[k]? = l[k]?) := by
  intro fuel
  induction fuel with
  | zero => intro l first last v hfuel hpf hfl hll0 hl0len hpos hpv hup hdown hleft hright; omega
  | succ fuel ih =>
    intro l first last v hfuel hpf hfl hll0 hl0len hpos hpv hup hdown hleft hright
    obtain ⟨s, hs1, hs2, hs3⟩ := hup
    obtain ⟨t, ht1, ht2⟩ := hdown
    -- the upward scan stops at or before the sentinel
    obtain ⟨f, hfscan, hf1, hf2, hf3, hf4⟩ :=
      scanUp_spec (l.length - first) first (by omega) s hs1 (by omega) hs3
    -- the downward scan stops at or above the stopper
    obtain ⟨g, hgscan, hg1, hg2, hg3, hg4⟩ :=
      scanDown_spec (last - 1) (by omega) t (by omega) ht2
    by_cases hfg : f < g
    · -- swap and continue on [f+1, g)
      have hflen : f < l.length := by omega
      have hglen : g < l.length := by omega
      obtain ⟨l2, hl2, hl2len, hl2perm, hl2_f, hl2_g, hl2_other⟩ := swapC_spec hflen hglen
      have hl2_pv : l2[pIdx]? = some v := by
        rw [hl2_other pIdx (by omega) (by omega)]
        exact hpv
      have hfval : l[f]? = some l[f] := List.getElem?_eq_getElem hflen
      have hgval : l[g]? = some l[g] := List.getElem?_eq_getElem hglen
      obtain ⟨r, b, hres, hrlen, hrperm, hb1, hb2, hrp, hrleft, hrright, hrlow, hrhigh⟩ :=
        ih l2 (f + 1) g v (by omega) (by omega) (by omega) (by omega) (by omega)
          (by omega) hl2_pv
          ⟨g, by omega, by omega, by
            intro z hz
            rw [hl2_g, hfval] at hz
            cases hz
            exact hf3 l[f] hfval⟩
          ⟨f, by omega, by
            intro z hz
            rw [hl2_f, hgval] at hz
            cases hz
            exact hg3 l[g] hgval⟩
          (by
            intro k hk1 hk2 z hz
            rcases Nat.lt_or_ge k first with hkf | hkf
            · rw [hl2_other k (by omega) (by omega)] at hz
              exact hleft k hk1 hkf z hz
            · rcases Nat.lt_or_ge k f with hkf2 | hkf2
              · rw [hl2_other k (by omega) (by omega)] at hz
                exact hasym _ _ (hf4 k hkf hkf2 z hz)
              · have hkf3 : k = f := by omega
                subst hkf3
                rw [hl2_f, hgval] at hz
                cases hz
                exact hg3 l[g] hgval)
          (by
            intro k hk1 hk2 z hz
            rcases Nat.eq_or_lt_of_le hk1 with hkg | hkg
            · subst hkg
              rw [hl2_g, hfval] at hz
              cases hz
              exact hf3 l[f] hfval
            · rcases Nat.lt_or_ge k last with hkl | hkl
              · rw [hl2_other k (by omega) (by omega)] at hz
                exact hasym _ _ (hg4 k hkg (by omega) z hz)
              · rw [hl2_other k (by omega) (by omega)] at hz
                exact hright k hkl hk2 z hz)
      refine ⟨r, b, ?_, by omega, hrperm.trans hl2perm, by omega, hb2, ?_, hrleft, hrright,
        ?_, ?_⟩
      · simp only [partitionLoop, Option.bind_eq_bind, hpv, Option.some_bind, hfscan,
          hgscan, if_pos hfg, hl2]
        exact hres
      · rw [hrp, hl2_other pIdx (by omega) (by omega)]
      · intro k hk
        rw [hrlow k hk, hl2_other k (by omega) (by omega)]
      · intro k hk
        rw [hrhigh k hk, hl2_other k (by omega) (by omega)]
    · -- the pointers met or crossed: return (l, f)
      refine ⟨l, f, ?_, rfl, List.Perm.refl l, hf1, by omega, rfl, ?_, ?_,
        fun _ _ => rfl, fun _ _ => rfl⟩
      · simp only [partitionLoop, Option.bind_eq_bind, hpv, Option.some_bind, hfscan,
          hgscan, if_neg hfg]
      · intro k hk1 hk2 z hz
        rcases Nat.lt_or_ge k first with hkf | hkf
        · exact hleft k hk1 hkf z hz
        · exact hasym _ _ (hf4 k hkf hk2 z hz)
      · intro k hk1 hk2 z hz
        rcases Nat.eq_or_lt_of_le hk1 with hkf | hkf
        · subst hkf
          exact hf3 z hz
        · rcases Nat.lt_or_ge k last with hkl | hkl
          · exact hasym _ _ (hg4 k (by omega) (by omega) z hz)
          · exact hright k hkl hk2 z hz

theorem asym_irrefl {lt : α → α → Bool}
    (hasym : ∀ a b, lt a b = true → lt b a = false) (a : α) : lt a a = false := by
  cases h : lt a a with
  | false => rfl
  | true =>
    rw [← h]
    exact hasym a a h

/-- `median_3` picks one of the three indices, and (under asymmetry) some
*other* one of the three indices holds a value that is not less than the
value picked — the sentinel that keeps the unguarded partition scan inside
the range. -/
theorem median_3_spec {lt : α → α → Bool}
    (hasym : ∀ a b, lt a b = true → lt b a = false)
    {l : List α} {i j k : Nat} {x y z : α}
    (hij : i ≠ j) (hik : i ≠ k) (hjk : j ≠ k)
    (hx : l[i]? = some x) (hy : l[j]? = some y) (hz : l[k]? = some z) :
    ∃ p w, median_3 lt l i j k = some p ∧ (p = i ∨ p = j ∨ p = k) ∧
      (w = i ∨ w = j ∨ w = k) ∧ w ≠ p ∧
      (∀ pv wv, l[p]? = some pv → l[w]? = some wv → lt wv pv = false) := by
  have hval : ∀ (a b : Nat) (va vb : α), l[a]? = some va → l[b]? = some vb →
      lt vb va = false → ∀ pv wv, l[a]? = some pv → l[b]? = some wv →
      lt wv pv = false := by
    intro a b va vb hva hvb hlt pv wv hpv hwv
    rw [hva] at hpv
    cases hpv
    rw [hvb] at hwv
    cases hwv
    exact hlt
  by_cases h1 : lt x y = true
  · by_cases h2 : lt y z = true
    · -- x < y < z: median y at j; z (not less than y by asymmetry) at k
      refine ⟨j, k, ?_, Or.inr (Or.inl rfl), Or.inr (Or.inr rfl), Ne.symm hjk, ?_⟩
      · simp [median_3, hx, hy, hz, h1, h2]
      · exact hval j k y z hy hz (hasym _ _ h2)
    · by_cases h3 : lt x z = true
      · -- x < y, z ≤ y, x < z: median z at k; y (not less than z) at j
        refine ⟨k, j, ?_, Or.inr (Or.inr rfl), Or.inr (Or.inl rfl), hjk, ?_⟩
        · simp [median_3, hx, hy, hz, h1, h2, h3]
        · exact hval k j z y hz hy (by simpa using h2)
      · -- x < y, z ≤ y, z ≤ x: median x at i; y (not less than x) at j
        refine ⟨i, j, ?_, Or.inl rfl, Or.inr (Or.inl rfl), Ne.symm hij, ?_⟩
        · simp [median_3, hx, hy, hz, h1, h2, h3]
        · exact hval i j x y hx hy (hasym _ _ h1)
  · by_cases h3 : lt x z = true
    · -- y ≤ x, x < z: median x at i; z (not less than x) at k
      refine ⟨i, k, ?_, Or.inl rfl, Or.inr (Or.inr rfl), Ne.symm hik, ?_⟩
      · simp [median_3, hx, hy, hz, h1, h3]
      · exact hval i k x z hx hz (hasym _ _ h3)
    · by_cases h2 : lt y z = true
      · -- y ≤ x, z ≤ x, y < z: median z at k; x (not less than z) at i
        refine ⟨k, i, ?_, Or.inr (Or.inr rfl), Or.inl rfl, hik, ?_⟩
        · simp [median_3, hx, hy, hz, h1, h2, h3]
        · exact hval k i z x hz hx (by simpa using h3)
      · -- y ≤ x, z ≤ x, z ≤ y: median y at j; x (not less than y) at i
        refine ⟨j, i, ?_, Or.inr (Or.inl rfl), Or.inl rfl, hij, ?_⟩
        · simp [median_3, hx, hy, hz, h1, h2, h3]
        · exact hval j i y x hy hx (by simpa using h1)

/-- Specification of `partition_pivot` under asymmetry, for ranges of
length at least 4 (so that the three median candidates occupy three
distinct cells — the sentinel argument needs a second candidate cell).
The boundary `b` satisfies `base < b < base + len`, cells before `b` are
not greater than the pivot value, cells from `b` on are not less than
it, and only cells inside the range `[base, base + len)` are permuted. -/
theorem partition_pivot_spec {lt : α → α → Bool}
    (hasym : ∀ a b, lt a b = true → lt b a = false)
    (l : List α) (base len : Nat) (hlen : 4 ≤ len) (hb : base + len ≤ l.length) :
    ∃ r b v, partition_pivot lt l base len = some (r, b) ∧
      r.length = l.length ∧ List.Perm r l ∧
      base < b ∧ b < base + len ∧
      r[base]? = some v ∧
      (∀ k, base ≤ k → k < b → ∀ z, r[k]? = some z → lt v z = false) ∧
      (∀ k, b ≤ k → k < base + len → ∀ z, r[k]? = some z → lt z v = false) ∧
      (∀ k, k < base → r[k]? = l[k]?) ∧ (∀ k, base + len ≤ k → r[k]? = l[k]?) := by
  have hi1 : base + 1 < l.length := by omega
  have hi2 : base + len / 2 < l.length := by omega
  have hi3 : base + (len - 1) < l.length := by omega
  have hx : l[base + 1]? = some l[base + 1] := List.getElem?_eq_getElem hi1
  have hy : l[base + len / 2]? = some l[base + len / 2] := List.getElem?_eq_getElem hi2
  have hz : l[base + (len - 1)]? = some l[base + (len - 1)] := List.getElem?_eq_getElem hi3
  obtain ⟨p, w, hmed, hp, hw, hwp, hmax⟩ :=
    median_3_spec hasym (by omega) (by omega) (by omega) hx hy hz
  have hp_lo : base + 1 ≤ p := by rcases hp with rfl | rfl | rfl <;> omega
  have hp_hi : p < base + len := by rcases hp with rfl | rfl | rfl <;> omega
  have hw_lo : base + 1 ≤ w := by rcases hw with rfl | rfl | rfl <;> omega
  have hw_hi : w < base + len := by rcases hw with rfl | rfl | rfl <;> omega
  have hplen : p < l.length := by omega
  obtain ⟨l2, hsw, hl2len, hl2perm, hl2_base, hl2_p, hl2_other⟩ :=
    swapC_spec (show base < l.length by omega) hplen
  have hpval : l[p]? = some l[p] := List.getElem?_eq_getElem hplen
  have hl2_pv : l2[base]? = some l[p] := by rw [hl2_base, hpval]
  have hwv : l[w]? = some l[w] :=
    List.getElem?_eq_getElem (show w < l.length by omega)
  have hsent : ∀ z, l2[w]? = some z → lt z l[p] = false := by
    intro z hzv
    rw [hl2_other w (by omega) hwp] at hzv
    rw [hwv] at hzv
    cases hzv
    exact hmax l[p] l[w] hpval hwv
  obtain ⟨r, b, hres, hrlen, hrperm, hb1, hb2, hrp, hrleft, hrright, hrlow, hrhigh⟩ :=
    partitionLoop_spec hasym base (base + len) (l2.length + 1 - (base + 1)) l2 (base + 1)
      (base + len) l[p] (by omega) (by omega) (by omega) (by omega) (by omega) (by omega)
      hl2_pv
      ⟨w, by omega, by omega, hsent⟩
      ⟨base, by omega, by
        intro z hzv
        rw [hl2_pv] at hzv
        cases hzv
        exact asym_irrefl hasym l[p]⟩
      (fun k hk1 hk2 _ _ => by omega)
      (fun k hk1 hk2 _ _ => by omega)
  refine ⟨r, b, l[p], ?_, by omega, hrperm.trans hl2perm, by omega, hb2, ?_, ?_, hrright,
    ?_, ?_⟩
  · simp only [partition_pivot, Option.bind_eq_bind, hmed, Option.some_bind, hsw,
      partition]
    exact hres
  · rw [hrp, hl2_pv]
  · intro k hk1 hk2 z hzv
    rcases Nat.eq_or_lt_of_le hk1 with hkb | hkb
    · subst hkb
      rw [hrp, hl2_pv] at hzv
      cases hzv
      exact asym_irrefl hasym l[p]
    · exact hrleft k hkb hk2 z hzv
  · intro k hk
    rw [hrlow k (by omega), hl2_other k (by omega) (by omega)]
  · intro k hk
    rw [hrhigh k hk, hl2_other k (by omega) (by omega)]

/-! ## Permutation inversion lemmas: any run that returns `some` is a
permutation, whatever the comparator did -/

theorem shift_down_perm_of_some {lt : α → α → Bool} {base : Nat} :
    ∀ (fuel : Nat) (l : List α) (root e : Nat) (r : List α),
      shift_down lt base fuel l root e = some r →
      r.length = l.length ∧ List.Perm r l := by
  intro fuel
  induction fuel with
  | zero => intro l root e r h; cases h
  | succ fuel ih =>
    intro l root e r h
    by_cases hg : 2 * root < e
    case neg =>
      simp only [shift_down, if_neg hg, Option.some.injEq] at h
      subst h
      exact ⟨rfl, List.Perm.refl l⟩
    case pos =>
    have hbind := h
    rw [shift_down] at hbind
    rw [if_pos hg] at hbind
    simp only [Option.bind_eq_bind, Option.bind_eq_some] at hbind
    obtain ⟨rv, hrv, lv, hlv, hrest⟩ := hbind
    by_cases hrc : 2 * root + 2 ≤ e
    · rw [if_pos hrc] at hrest
      simp only [Option.bind_eq_bind, Option.bind_eq_some] at hrest
      obtain ⟨sv, hsv, rcv, hrcv, _⟩ := hrest
      rcases shift_down_step_rc fuel hg hrc hrv hlv hrcv with
        ⟨_, _, heq⟩ | ⟨s, l2, hsw2, heq, _⟩
      · rw [heq] at h
        cases h
        exact ⟨rfl, List.Perm.refl l⟩
      · rw [heq] at h
        obtain ⟨hlen2, hperm2⟩ := (swapC_perm hsw2)
        obtain ⟨hrlen, hrperm⟩ := ih l2 s e r h
        exact ⟨by omega, hrperm.trans hlen2⟩
    · rcases shift_down_step_norc fuel hg hrc hrv hlv with ⟨_, heq⟩ | ⟨_, l2, hsw2, heq⟩
      · rw [heq] at h
        cases h
        exact ⟨rfl, List.Perm.refl l⟩
      · rw [heq] at h
        obtain ⟨hperm2, hlen2⟩ := swapC_perm hsw2
        obtain ⟨hrlen, hrperm⟩ := ih l2 (2 * root + 1) e r h
        exact ⟨by omega, hrperm.trans hperm2⟩

theorem heapifyLoop_perm_of_some {lt : α → α → Bool} {base e : Nat} :
    ∀ (s : Nat) (l r : List α), heapifyLoop lt base e s l = some r →
      r.length = l.length ∧ List.Perm r l := by
  intro s
  induction s with
  | zero =>
    intro l r h
    exact shift_down_perm_of_some (e + 1) l 0 e r h
  | succ s ih =>
    intro l r h
    simp only [heapifyLoop, Option.bind_eq_bind, Option.bind_eq_some] at h
    obtain ⟨l2, hl2, hr⟩ := h
    obtain ⟨hlen2, hperm2⟩ := shift_down_perm_of_some (e + 1) l (s + 1) e l2 hl2
    obtain ⟨hrlen, hrperm⟩ := ih l2 r hr
    exact ⟨by omega, hrperm.trans hperm2⟩

theorem sortDownLoop_perm_of_some {lt : α → α → Bool} {base : Nat} :
    ∀ (e : Nat) (l r : List α), sortDownLoop lt base e l = some r →
      r.length = l.length ∧ List.Perm r l := by
  intro e
  induction e with
  | zero =>
    intro l r h
    simp only [sortDownLoop, Option.some.injEq] at h
    subst h
    exact ⟨rfl, List.Perm.refl l⟩
  | succ e ih =>
    intro l r h
    simp only [sortDownLoop, Option.bind_eq_bind, Option.bind_eq_some] at h
    obtain ⟨l2, hl2, l3, hl3, hr⟩ := h
    obtain ⟨hperm2, hlen2⟩ := swapC_perm hl2
    obtain ⟨hlen3, hperm3⟩ := shift_down_perm_of_some (e + 1) l2 0 e l3 hl3
    obtain ⟨hrlen, hrperm⟩ := ih l3 r hr
    exact ⟨by omega, (hrperm.trans hperm3).trans hperm2⟩

theorem heapsort_impl_perm_of_some {lt : α → α → Bool} {base len : Nat}
    {l r : List α} (h : heapsort_impl lt l base len = some r) :
    r.length = l.length ∧ List.Perm r l := by
  simp only [heapsort_impl, heapify, Option.bind_eq_bind, Option.bind_eq_some] at h
  obtain ⟨l2, hl2, hr⟩ := h
  obtain ⟨hlen2, hperm2⟩ := heapifyLoop_perm_of_some ((len - 2) / 2) l l2 hl2
  obtain ⟨hrlen, hrperm⟩ := sortDownLoop_perm_of_some (len - 1) l2 r hr
  exact ⟨by omega, hrperm.trans hperm2⟩

theorem partitionLoop_perm_of_some {lt : α → α → Bool} {pIdx : Nat} :
    ∀ (fuel : Nat) (l : List α) (first last : Nat) (r : List α) (b : Nat),
      partitionLoop lt pIdx fuel l first last = some (r, b) →
      r.length = l.length ∧ List.Perm r l := by
  intro fuel
  induction fuel with
  | zero => intro l first last r b h; cases h
  | succ fuel ih =>
    intro l first last r b h
    simp only [partitionLoop, Option.bind_eq_bind, Option.bind_eq_some] at h
    obtain ⟨v, hv, f, hf, g, hg, hrest⟩ := h
    by_cases hfg : f < g
    · rw [if_pos hfg] at hrest
      simp only [Option.bind_eq_bind, Option.bind_eq_some] at hrest
      obtain ⟨l2, hl2, hr⟩ := hrest
      obtain ⟨hperm2, hlen2⟩ := swapC_perm hl2
      obtain ⟨hrlen, hrperm⟩ := ih l2 (f + 1) g r b hr
      exact ⟨by omega, hrperm.trans hperm2⟩
    · rw [if_neg hfg] at hrest
      simp only [Option.some.injEq, Prod.mk.injEq] at hrest
      obtain ⟨h1, _⟩ := hrest
      subst h1
      exact ⟨rfl, List.Perm.refl l⟩

theorem partition_pivot_perm_of_some {lt : α → α → Bool} {base len : Nat}
    {l r : List α} {b : Nat} (h : partition_pivot lt l base len = some (r, b)) :
    r.length = l.length ∧ List.Perm r l := by
  simp only [partition_pivot, partition, Option.bind_eq_bind, Option.bind_eq_some] at h
  obtain ⟨p, _, l2, hl2, hr⟩ := h
  obtain ⟨hperm2, hlen2⟩ := swapC_perm hl2
  obtain ⟨hrlen, hrperm⟩ :=
    partitionLoop_perm_of_some (l2.length + 1 - (base + 1)) l2 (base + 1) (base + len) r b hr
  exact ⟨by omega, hrperm.trans hperm2⟩

theorem introsort_loop_perm_of_some {lt : α → α → Bool} :
    ∀ (depth : Nat) (l : List α) (base last : Nat) (r : List α),
      introsort_loop lt depth l base last = some r →
      r.length = l.length ∧ List.Perm r l := by
  intro depth
  induction depth with
  | zero =>
    intro l base last r h
    rw [introsort_loop] at h
    split at h
    · exact heapsort_impl_perm_of_some h
    · simp only [Option.some.injEq] at h
      subst h
      exact ⟨rfl, List.Perm.refl l⟩
  | succ depth ih =>
    intro l base last r h
    rw [introsort_loop] at h
    split at h
    · simp only [Option.bind_eq_bind, Option.bind_eq_some] at h
      obtain ⟨pr, hpr, l2, hl2, hr⟩ := h
      obtain ⟨hlen1, hperm1⟩ := partition_pivot_perm_of_some hpr
      obtain ⟨hlen2, hperm2⟩ := ih pr.1 pr.2 last l2 hl2
      obtain ⟨hrlen, hrperm⟩ := ih l2 base pr.2 r hr
      exact ⟨by omega, (hrperm.trans hperm2).trans hperm1⟩
    · simp only [Option.some.injEq] at h
      subst h
      exact ⟨rfl, List.Perm.refl l⟩

theorem insLoop_perm_of_some {lt : α → α → Bool} :
    ∀ (fuel : Nat) (l : List α) (i : Nat) (r : List α),
      insLoop lt fuel l i = some r → r.length = l.length ∧ List.Perm r l := by
  intro fuel
  induction fuel with
  | zero =>
    intro l i r h
    simp only [insLoop, Option.some.injEq] at h
    subst h
    exact ⟨rfl, List.Perm.refl l⟩
  | succ fuel ih =>
    intro l i r h
    simp only [insLoop, Option.bind_eq_bind, Option.bind_eq_some] at h
    obtain ⟨l2, hl2, hr⟩ := h
    have hi : i < l.length := by
      by_contra hcon
      have : l[i]? = none := List.getElem?_eq_none (by omega)
      simp only [insStep, Option.bind_eq_bind, this, Option.none_bind] at hl2
      cases hl2
    obtain ⟨r0, j, hstep, _, hji, hshape⟩ := insStep_spec lt hi
    rw [hstep] at hl2
    cases hl2
    obtain ⟨hrlen, hrperm⟩ := ih l2 (i + 1) r hr
    exact ⟨by rw [hrlen, hshape.1], hrperm.trans (insert_shape_perm hi hji hshape)⟩

theorem insertsort_impl_perm_of_some {lt : α → α → Bool} {l r : List α} {len : Nat}
    (h : insertsort_impl lt l len = some r) : r.length = l.length ∧ List.Perm r l :=
  insLoop_perm_of_some (len - 1) l 1 r h

/-! ## Introsort: totality under a strict weak ordering -/

theorem introsort_loop_spec {lt : α → α → Bool} (hsw : IsSWO lt) :
    ∀ (depth : Nat) (l : List α) (base last : Nat),
      last ≤ l.length →
      ∃ r, introsort_loop lt depth l base last = some r ∧ r.length = l.length ∧
        List.Perm r l := by
  intro depth
  induction depth with
  | zero =>
    intro l base last hlast
    rw [introsort_loop]
    by_cases hg : last - base > THRESHOLD
    · rw [if_pos hg]
      simp only [THRESHOLD] at hg
      exact heapsort_impl_total lt base (last - base) l (by omega) (by omega)
    · rw [if_neg hg]
      exact ⟨l, rfl, rfl, List.Perm.refl l⟩
  | succ depth ih =>
    intro l base last hlast
    by_cases hg : last - base > THRESHOLD
    · have hg' : 16 < last - base := by simpa [THRESHOLD] using hg
      obtain ⟨r1, b, v, hpp, hlen1, hperm1, hb1, hb2, _, _, _, _, _⟩ :=
        partition_pivot_spec hsw.asymm l base (last - base) (by omega) (by omega)
      obtain ⟨r2, h2, hlen2, hperm2⟩ := ih r1 b last (by omega)
      obtain ⟨r3, h3, hlen3, hperm3⟩ := ih r2 base b (by omega)
      refine ⟨r3, ?_, by omega, (hperm3.trans hperm2).trans hperm1⟩
      rw [introsort_loop, if_pos hg]
      simp only [Option.bind_eq_bind, hpp, Option.some_bind]
      rw [h2]
      simp only [Option.some_bind]
      exact h3
    · exact ⟨l, by rw [introsort_loop, if_neg hg], rfl, List.Perm.refl l⟩

theorem insertsort_impl_sorted_any {lt : α → α → Bool}
    (hasym : ∀ a b, lt a b = true → lt b a = false) (l : List α) (len : Nat)
    (hlen : len = l.length) :
    ∃ r, insertsort_impl lt l len = some r ∧ r.length = l.length ∧
      List.Perm r l ∧ AdjNondecr lt r := by
  subst hlen
  exact insertsort_impl_sorted hasym l

theorem introsort_impl_spec {lt : α → α → Bool} (hsw : IsSWO lt) (l : List α) :
    ∃ r, introsort_impl lt l = some r ∧ r.length = l.length ∧ List.Perm r l ∧
      AdjNondecr lt r := by
  by_cases h0 : 0 < l.length
  · obtain ⟨l2, hl2, hlen2, hperm2⟩ :=
      introsort_loop_spec hsw (2 * lg l.length) l 0 l.length (Nat.le_refl _)
    obtain ⟨r, hr, hrlen, hrperm, hradj⟩ :=
      insertsort_impl_sorted_any hsw.asymm l2 l.length hlen2.symm
    refine ⟨r, ?_, by omega, hrperm.trans hperm2, hradj⟩
    simp only [introsort_impl, if_pos h0, Option.bind_eq_bind, hl2, Option.some_bind]
    exact hr
  · refine ⟨l, by simp [introsort_impl, h0], rfl, List.Perm.refl l, ?_⟩
    intro k x y hx _
    have := (List.getElem?_eq_some_iff.mp hx).1
    omega

theorem introsort_impl_perm_of_some {lt : α → α → Bool} {l r : List α}
    (h : introsort_impl lt l = some r) : r.length = l.length ∧ List.Perm r l := by
  by_cases h0 : 0 < l.length
  · simp only [introsort_impl, if_pos h0, Option.bind_eq_bind, Option.bind_eq_some] at h
    obtain ⟨l2, hl2, hr⟩ := h
    obtain ⟨hlen2, hperm2⟩ := introsort_loop_perm_of_some (2 * lg l.length) l 0 l.length l2 hl2
    obtain ⟨hrlen, hrperm⟩ := insertsort_impl_perm_of_some hr
    exact ⟨by omega, hrperm.trans hperm2⟩
  · simp only [introsort_impl, if_neg h0, Option.some.injEq] at h
    subst h
    exact ⟨rfl, List.Perm.refl l⟩

/-! ## The depth-budget arithmetic: `lg` is the floor logarithm -/

theorem bitLenAux_eq : ∀ (fuel n : Nat), n ≤ fuel →
    bitLenAux fuel n = if n = 0 then 0 else Nat.log2 n + 1 := by
  intro fuel
  induction fuel with
  | zero =>
    intro n h
    have h0 : n = 0 := by omega
    subst h0
    rfl
  | succ fuel ih =>
    intro n h
    by_cases h0 : n = 0
    · subst h0
      rfl
    · rw [show bitLenAux (fuel + 1) n =
        (if n = 0 then 0 else bitLenAux fuel (n / 2) + 1) from rfl]
      rw [if_neg h0, if_neg h0, ih (n / 2) (by omega)]
      by_cases h1 : n / 2 = 0
      · have hn1 : n = 1 := by omega
        subst hn1
        rw [if_pos rfl]
        rw [show Nat.log2 1 = 0 from by rw [Nat.log2]; simp]
      · rw [if_neg h1]
        have h2 : 2 ≤ n := by omega
        conv_rhs => rw [Nat.log2]
        rw [if_pos h2]

theorem bitLen_eq {n : Nat} (h : 1 ≤ n) : bitLen n = Nat.log2 n + 1 := by
  rw [bitLen, bitLenAux_eq n n (Nat.le_refl n), if_neg (by omega)]

theorem lg_eq_log2 {n : Nat} (h1 : 1 ≤ n) (h2 : n < 2 ^ 64) : lg n = Nat.log2 n := by
  have hb : bitLen n = Nat.log2 n + 1 := bitLen_eq h1
  have hlog : Nat.log2 n < 64 := (Nat.log2_lt (by omega)).mpr h2
  rw [lg, leadingZeros]
  omega

/-! ## A strictly sorted list is the unique nondecreasing arrangement of
its elements -/

theorem strictIncr_tail {lt : α → α → Bool} {x : α} {t : List α}
    (h : StrictIncr lt (x :: t)) : StrictIncr lt t := by
  intro i a b ha hb
  exact h (i + 1) a b (by simpa using ha) (by simpa using hb)

theorem strictIncr_head_lt {lt : α → α → Bool}
    (htr : ∀ a b c, lt a b = true → lt b c = true → lt a c = true)
    {x : α} {t : List α} (h : StrictIncr lt (x :: t)) :
    ∀ y ∈ t, lt x y = true := by
  have hidx : ∀ (n : Nat) (y : α), t[n]? = some y → lt x y = true := by
    intro n
    induction n with
    | zero =>
      intro y hy
      exact h 0 x y (by simp) (by simpa using hy)
    | succ n ihn =>
      intro y hy
      have hlen : n + 1 < t.length := (List.getElem?_eq_some_iff.mp hy).1
      have hz : t[n]? = some t[n] := List.getElem?_eq_getElem (by omega)
      exact htr _ _ _ (ihn t[n] hz)
        (h (n + 1) t[n] y (by simp) (by simpa using hy))
  intro y hy
  obtain ⟨n, hn⟩ := List.mem_iff_getElem?.mp hy
  exact hidx n y hn

theorem adjNondecr_head_nlt {lt : α → α → Bool}
    (hntr : ∀ a b c, lt a b = false → lt b c = false → lt a c = false)
    {y : α} {t : List α} (h : AdjNondecr lt (y :: t)) :
    ∀ z ∈ t, lt z y = false := by
  have hidx : ∀ (n : Nat) (z : α), t[n]? = some z → lt z y = false := by
    intro n
    induction n with
    | zero =>
      intro z hz
      exact h 0 y z (by simp) (by simpa using hz)
    | succ n ihn =>
      intro z hz
      have hlen : n + 1 < t.length := (List.getElem?_eq_some_iff.mp hz).1
      have hw : t[n]? = some t[n] := List.getElem?_eq_getElem (by omega)
      exact hntr _ _ _
        (h (n + 1) t[n] z (by simp) (by simpa using hz))
        (ihn t[n] hw)
  intro z hz
  obtain ⟨n, hn⟩ := List.mem_iff_getElem?.mp hz
  exact hidx n z hn

theorem sorted_perm_unique {lt : α → α → Bool} (hsw : IsSWO lt) :
    ∀ (l1 l2 : List α), List.Perm l2 l1 → StrictIncr lt l1 → AdjNondecr lt l2 →
      l2 = l1 := by
  intro l1
  induction l1 with
  | nil =>
    intro l2 hperm _ _
    exact List.Perm.eq_nil hperm
  | cons x t1 ih =>
    intro l2 hperm hstrict hadj
    cases l2 with
    | nil =>
      have := hperm.length_eq
      simp at this
    | cons y t2 =>
      have hxy : y = x := by
        by_contra hne
        have hx_mem : x ∈ y :: t2 := hperm.mem_iff.mpr (by simp)
        have hx_t2 : x ∈ t2 := by
          rcases List.mem_cons.mp hx_mem with h | h
          · exact absurd h.symm hne
          · exact h
        have hy_mem : y ∈ x :: t1 := hperm.mem_iff.mp (by simp)
        have hy_t1 : y ∈ t1 := by
          rcases List.mem_cons.mp hy_mem with h | h
          · exact absurd h (fun hh => hne hh)
          · exact h
        have h1 : lt x y = true := strictIncr_head_lt hsw.lt_trans hstrict y hy_t1
        have h2 : lt x y = false := adjNondecr_head_nlt hsw.nlt_trans hadj x hx_t2
        rw [h1] at h2
        cases h2
      subst hxy
      rw [ih t2 hperm.cons_inv (strictIncr_tail hstrict) (adjNondecr_tail hadj)]

/-! ## Short inputs and the threshold -/

theorem insertsort_by_short {lt : α → α → Bool} {l : List α} (h : l.length ≤ 1) :
    insertsort_by lt l = some l := by
  have h0 : l.length - 1 = 0 := by omega
  rw [insertsort_by, insertsort_impl, h0]
  rfl

theorem heapsort_by_short {lt : α → α → Bool} {l : List α} (h : l.length ≤ 1) :
    heapsort_by lt l = some l := by
  rcases Nat.lt_or_ge l.length 1 with h0 | h0
  · rw [heapsort_by, if_neg (by omega)]
  · have h1 : l.length = 1 := by omega
    rw [heapsort_by, if_pos (by omega), h1]
    rfl

theorem introsort_by_eq_insertsort_by_of_short {lt : α → α → Bool} {l : List α}
    (h : l.length ≤ 16) : introsort_by lt l = insertsort_by lt l := by
  rw [introsort_by, insertsort_by, introsort_impl]
  by_cases h0 : 0 < l.length
  · rw [if_pos h0]
    have hloop : introsort_loop lt (2 * lg l.length) l 0 l.length = some l := by
      rw [introsort_loop.eq_def, if_neg (by simp only [THRESHOLD]; omega)]
    simp only [Option.bind_eq_bind, hloop, Option.some_bind]
  · rw [if_neg h0]
    have h1 : l.length = 0 := by omega
    rw [insertsort_impl, h1]
    rfl

theorem introsort_by_short {lt : α → α → Bool} {l : List α} (h : l.length ≤ 1) :
    introsort_by lt l = some l := by
  rw [introsort_by_eq_insertsort_by_of_short (by omega)]
  exact insertsort_by_short h

/-! ## Strict weak orderings obtained from linear orders -/

theorem isSWO_decide_lt {β : Type} [LinearOrder β] :
    IsSWO (fun a b : β => decide (a < b)) := by
  refine ⟨?_, ?_, ?_⟩
  · intro a b h
    simp only [decide_eq_true_eq] at h
    simp [lt_asymm h]
  · intro a b c h1 h2
    simp only [decide_eq_true_eq] at h1 h2
    simp [lt_trans h1 h2]
  · intro a b c h1 h2
    simp only [decide_eq_false_iff_not] at h1 h2
    simp only [decide_eq_false_iff_not]
    intro h
    exact absurd h (not_lt.mpr (le_trans (le_of_not_lt h2) (le_of_not_lt h1)))

theorem isSWO_natLT : IsSWO natLT := isSWO_decide_lt

theorem isSWO_pairLT : IsSWO pairLT := by
  refine ⟨?_, ?_, ?_⟩
  · intro a b
    simp only [pairLT, decide_eq_true_eq, decide_eq_false_iff_not]
    omega
  · intro a b c
    simp only [pairLT, decide_eq_true_eq]
    omega
  · intro a b c
    simp only [pairLT, decide_eq_false_iff_not]
    omega

/-! ## Unfolding equations for the introsort driver -/

theorem introsort_impl_unfold {lt : α → α → Bool} {l : List α} (h0 : 0 < l.length) :
    introsort_impl lt l =
      (introsort_loop lt (2 * lg l.length) l 0 l.length).bind
        (fun l2 => insertsort_impl lt l2 l.length) := by
  rw [introsort_impl, if_pos h0]
  rfl

theorem introsort_loop_zero_unfold {lt : α → α → Bool} {l : List α} {base last : Nat}
    (h : THRESHOLD < last - base) :
    introsort_loop lt 0 l base last = heapsort_impl lt l base (last - base) := by
  rw [introsort_loop, if_pos h]

theorem introsort_loop_succ_unfold {lt : α → α → Bool} {l : List α}
    {base last d : Nat} (h : THRESHOLD < last - base) :
    introsort_loop lt (d + 1) l base last =
      (partition_pivot lt l base (last - base)).bind
        (fun pr => (introsort_loop lt d pr.1 pr.2 last).bind
          (fun l2 => introsort_loop lt d l2 base pr.2)) := by
  rw [introsort_loop, if_pos h]
  rfl

theorem introsort_loop_small {lt : α → α → Bool} {l : List α} {base last d : Nat}
    (h : ¬ THRESHOLD < last - base) :
    introsort_loop lt d l base last = some l := by
  rw [introsort_loop.eq_def, if_neg h]

theorem introsortCalls_succ_unfold {lt : α → α → Bool} {l l1 : List α}
    {base last d b : Nat} (h : THRESHOLD < last - base)
    (hpp : partition_pivot lt l base (last - base) = some (l1, b)) :
    introsortCalls lt (d + 1) l base last =
      (b, last) :: (introsortCalls lt d l1 b last ++
        match introsort_loop lt d l1 b last with
        | none => []
        | some l2 => introsortCalls lt d l2 base b) := by
  rw [introsortCalls, if_pos h, hpp]

/-! ## Claim theorems -/

theorem strictIncrB_cons_cons {lt : α → α → Bool} {x y : α} {t : List α} :
    strictIncrB lt (x :: y :: t) = (lt x y && strictIncrB lt (y :: t)) := rfl

theorem strictIncrB_iff {lt : α → α → Bool} :
    ∀ {l : List α}, strictIncrB lt l = true ↔ StrictIncr lt l := by
  intro l
  induction l with
  | nil =>
    simp [strictIncrB, StrictIncr]
  | cons x t ih =>
    cases t with
    | nil =>
      constructor
      · intro _ i a b ha hb
        cases i with
        | zero => simp at hb
        | succ n => simp at ha
      · intro _; rfl
    | cons y t' =>
      rw [strictIncrB_cons_cons, Bool.and_eq_true, ih]
      constructor
      · rintro ⟨h1, h2⟩ i a b ha hb
        cases i with
        | zero =>
          simp only [List.getElem?_cons_zero, Option.some.injEq] at ha
          simp only [List.getElem?_cons_succ, List.getElem?_cons_zero,
            Option.some.injEq] at hb
          subst ha; subst hb
          exact h1
        | succ n =>
          exact h2 n a b (by simpa using ha) (by simpa using hb)
      · intro h
        refine ⟨?_, fun i a b ha hb => h (i + 1) a b ?_ ?_⟩
        · exact h 0 x y (by simp) (by simp)
        · simpa using ha
        · simpa using hb

/-- C1: for every comparator that is a strict weak ordering, each of the six
public entry points (`insertsort_by`, `heapsort_by`, `introsort_by`, and the
`LinearOrder` wrappers `insertsort`, `heapsort`, `introsort`) returns a
sequence in which every adjacent pair `(i, i+1)` satisfies
`lt output[i+1] output[i] = false`, i.e. the output is nondecreasing under
the given order. -/
theorem C1_adjacent_nondecreasing {β : Type} [LinearOrder β]
    (lt : α → α → Bool) (hsw : IsSWO lt) (l : List α) (m : List β) :
    (∃ r, insertsort_by lt l = some r ∧ AdjNondecr lt r) ∧
    (∃ r, heapsort_by lt l = some r ∧ AdjNondecr lt r) ∧
    (∃ r, introsort_by lt l = some r ∧ AdjNondecr lt r) ∧
    (∃ r, insertsort m = some r ∧ AdjNondecr (fun a b => decide (a < b)) r) ∧
    (∃ r, heapsort m = some r ∧ AdjNondecr (fun a b => decide (a < b)) r) ∧
    (∃ r, introsort m = some r ∧ AdjNondecr (fun a b => decide (a < b)) r) := by
  have hd : IsSWO (fun a b : β => decide (a < b)) := isSWO_decide_lt
  obtain ⟨r1, h1, _, _, ha1⟩ := insertsort_impl_sorted hsw.asymm l
  obtain ⟨r2, h2, _, _, ha2⟩ := heapsort_by_sorted hsw l
  obtain ⟨r3, h3, _, _, ha3⟩ := introsort_impl_spec hsw l
  obtain ⟨r4, h4, _, _, ha4⟩ := insertsort_impl_sorted hd.asymm m
  obtain ⟨r5, h5, _, _, ha5⟩ := heapsort_by_sorted hd m
  obtain ⟨r6, h6, _, _, ha6⟩ := introsort_impl_spec hd m
  exact ⟨⟨r1, h1, ha1⟩, ⟨r2, h2, ha2⟩, ⟨r3, h3, ha3⟩, ⟨r4, h4, ha4⟩,
    ⟨r5, h5, ha5⟩, ⟨r6, h6, ha6⟩⟩

theorem C1_adjacent_nondecreasing_witness :
    IsSWO natLT ∧
      (∃ r, insertsort_by natLT [2, 0, 1] = some r ∧ AdjNondecr natLT r) :=
  ⟨isSWO_natLT,
    (C1_adjacent_nondecreasing natLT isSWO_natLT [2, 0, 1] ([3, 1, 2] : List Nat)).1⟩

/-- C2: for every comparator whatsoever, any of the three sort calls that
completes leaves a permutation of the input (no element created, lost or
duplicated), and an input of length at most 1 is returned in its original
permutation by all three sorts. -/
theorem C2_permutation_property (lt : α → α → Bool) (l : List α) :
    (∀ r, insertsort_by lt l = some r → List.Perm r l) ∧
    (∀ r, heapsort_by lt l = some r → List.Perm r l) ∧
    (∀ r, introsort_by lt l = some r → List.Perm r l) ∧
    (l.length ≤ 1 →
      insertsort_by lt l = some l ∧ heapsort_by lt l = some l ∧
        introsort_by lt l = some l) := by
  refine ⟨?_, ?_, ?_, ?_⟩
  · intro r hr
    exact (insertsort_impl_perm_of_some hr).2
  · intro r hr
    obtain ⟨r0, h0, _, hperm⟩ := heapsort_by_total_perm lt l
    rw [h0] at hr
    cases hr
    exact hperm
  · intro r hr
    exact (introsort_impl_perm_of_some hr).2
  · intro h
    exact ⟨insertsort_by_short h, heapsort_by_short h, introsort_by_short h⟩

theorem C2_permutation_property_witness :
    List.Perm [0, 1, 2] [2, 0, 1] ∧ introsort_by natLT [5] = some [5] :=
  ⟨(C2_permutation_property natLT [2, 0, 1]).1 [0, 1, 2] (by decide),
    ((C2_permutation_property natLT [5]).2.2.2 (by decide)).2.2⟩

/-- C3 (amended): the insertion-sort scan and the heap sift-down stay in
bounds for every comparator whatsoever, and the introsort partition scans
stay in bounds whenever the comparator is a strict weak ordering; in the
embedding an out-of-bounds read or write yields `none`, so staying in bounds
is returning `some`. The original claim — in-bounds for every comparator,
including inconsistent ones — is refuted by `C3_oob_counterexample`: the
unguarded partition scan walks past the end of the allocation when the
comparator always answers `true`. -/
theorem C3_safety_under_swo (lt lt2 : α → α → Bool) (hsw : IsSWO lt)
    (l m : List α) :
    insertsort_by lt2 m ≠ none ∧ heapsort_by lt2 m ≠ none ∧
      introsort_by lt l ≠ none := by
  obtain ⟨r1, h1, _, _⟩ := insertsort_impl_total_perm lt2 m
  obtain ⟨r2, h2, _, _⟩ := heapsort_by_total_perm lt2 m
  obtain ⟨r3, h3, _, _, _⟩ := introsort_impl_spec hsw l
  refine ⟨?_, ?_, ?_⟩
  · show insertsort_impl lt2 m m.length ≠ none
    rw [h1]; exact Option.some_ne_none r1
  · rw [h2]; exact Option.some_ne_none r2
  · show introsort_impl lt l ≠ none
    rw [h3]; exact Option.some_ne_none r3

theorem C3_safety_under_swo_witness :
    IsSWO natLT ∧ introsort_by natLT rev18 ≠ none :=
  ⟨isSWO_natLT,
    (C3_safety_under_swo natLT natLT isSWO_natLT rev18 [2, 2]).2.2⟩

theorem C3_oob_counterexample :
    introsort_by (fun _ _ : Nat => true)
      [0, 1, 2, 3, 4, 5, 6, 7, 8, 9, 10, 11, 12, 13, 14, 15, 16] = none := by
  decide

/-- C4: for a sequence of positive length below `2 ^ 64` (every Rust `usize`
length), introsort starts its loop with depth budget
`2 * floor (log2 len)`; on every partition step of a long-enough range the
budget is decremented and the decremented budget is inherited both by the
recursive call and by the continuing loop; and a budget of zero on a range
longer than the threshold hands the entire range to heap sort, ending that
branch. -/
theorem C4_depth_budget (lt : α → α → Bool) (l : List α)
    (h0 : 0 < l.length) (hlen : l.length < 2 ^ 64) :
    introsort_impl lt l =
      (introsort_loop lt (2 * Nat.log2 l.length) l 0 l.length).bind
        (fun l2 => insertsort_impl lt l2 l.length) ∧
    (∀ (d : Nat) (m : List α) (base last : Nat), THRESHOLD < last - base →
      introsort_loop lt (d + 1) m base last =
        (partition_pivot lt m base (last - base)).bind
          (fun pr => (introsort_loop lt d pr.1 pr.2 last).bind
            (fun l2 => introsort_loop lt d l2 base pr.2))) ∧
    (∀ (m : List α) (base last : Nat), THRESHOLD < last - base →
      introsort_loop lt 0 m base last = heapsort_impl lt m base (last - base)) := by
  refine ⟨?_, ?_, ?_⟩
  · rw [introsort_impl_unfold h0, lg_eq_log2 h0 hlen]
  · intro d m base last h
    exact introsort_loop_succ_unfold h
  · intro m base last h
    exact introsort_loop_zero_unfold h

theorem C4_depth_budget_witness :
    introsort_loop natLT 0 rev18 0 18 = heapsort_impl natLT rev18 0 18 :=
  (C4_depth_budget natLT rev18 (by decide) (by decide)).2.2 rev18 0 18 (by decide)

/-- C5 (amended): on a partition step over the range `[base, base + len)`
with `4 ≤ len` and an asymmetric comparator, the pivot is selected by
`median_3` applied to the positions at offsets `1`, `len / 2` and `len - 1`
of the range — not offset `0` as the spec claims — and the selected pivot
value is swapped into the first cell of the range, where it still sits when
the partition returns. `C5_not_first_middle_last` refutes the original
position set: on `arrC5` the value brought to the front is strictly below
two of the three values at offsets `0`, `len / 2`, `len - 1`, so it is not
their median. -/
theorem C5_pivot_median_of_three (lt : α → α → Bool)
    (hasym : ∀ a b, lt a b = true → lt b a = false)
    (l : List α) (base len : Nat) (h4 : 4 ≤ len) (hb : base + len ≤ l.length) :
    ∃ p pv r b,
      median_3 lt l (base + 1) (base + len / 2) (base + (len - 1)) = some p ∧
      (p = base + 1 ∨ p = base + len / 2 ∨ p = base + (len - 1)) ∧
      l[p]? = some pv ∧
      partition_pivot lt l base len = some (r, b) ∧
      r[base]? = some pv := by
  have hi1 : base + 1 < l.length := by omega
  have hi2 : base + len / 2 < l.length := by omega
  have hi3 : base + (len - 1) < l.length := by omega
  have hx : l[base + 1]? = some l[base + 1] := List.getElem?_eq_getElem hi1
  have hy : l[base + len / 2]? = some l[base + len / 2] :=
    List.getElem?_eq_getElem hi2
  have hz : l[base + (len - 1)]? = some l[base + (len - 1)] :=
    List.getElem?_eq_getElem hi3
  obtain ⟨p, w, hmed, hp, hw, hwp, hmax⟩ :=
    median_3_spec hasym (by omega) (by omega) (by omega) hx hy hz
  have hp_lo : base + 1 ≤ p := by rcases hp with rfl | rfl | rfl <;> omega
  have hp_hi : p < base + len := by rcases hp with rfl | rfl | rfl <;> omega
  have hw_lo : base + 1 ≤ w := by rcases hw with rfl | rfl | rfl <;> omega
  have hw_hi : w < base + len := by rcases hw with rfl | rfl | rfl <;> omega
  have hplen : p < l.length := by omega
  obtain ⟨l2, hswp, hl2len, hl2perm, hl2_base, hl2_p, hl2_other⟩ :=
    swapC_spec (show base < l.length by omega) hplen
  have hpval : l[p]? = some l[p] := List.getElem?_eq_getElem hplen
  have hl2_pv : l2[base]? = some l[p] := by rw [hl2_base, hpval]
  have hwv : l[w]? = some l[w] :=
    List.getElem?_eq_getElem (show w < l.length by omega)
  have hsent : ∀ z, l2[w]? = some z → lt z l[p] = false := by
    intro z hzv
    rw [hl2_other w (by omega) hwp] at hzv
    rw [hwv] at hzv
    cases hzv
    exact hmax l[p] l[w] hpval hwv
  obtain ⟨r, b, hres, hrlen, hrperm, hb1, hb2, hrp, hrleft, hrright, hrlow, hrhigh⟩ :=
    partitionLoop_spec hasym base (base + len) (l2.length + 1 - (base + 1)) l2
      (base + 1) (base + len) l[p] (by omega) (by omega) (by omega) (by omega)
      (by omega) (by omega) hl2_pv
      ⟨w, by omega, by omega, hsent⟩
      ⟨base, by omega, by
        intro z hzv
        rw [hl2_pv] at hzv
        cases hzv
        exact asym_irrefl hasym l[p]⟩
      (fun k hk1 hk2 _ _ => by omega)
      (fun k hk1 hk2 _ _ => by omega)
  refine ⟨p, l[p], r, b, hmed, hp, hpval, ?_, ?_⟩
  · simp only [partition_pivot, Option.bind_eq_bind, hmed, Option.some_bind, hswp,
      partition]
    exact hres
  · rw [hrp, hl2_pv]

theorem C5_pivot_median_of_three_witness :
    ∃ p pv r b,
      median_3 natLT arrC5 (0 + 1) (0 + 17 / 2) (0 + (17 - 1)) = some p ∧
      (p = 0 + 1 ∨ p = 0 + 17 / 2 ∨ p = 0 + (17 - 1)) ∧
      arrC5[p]? = some pv ∧
      partition_pivot natLT arrC5 0 17 = some (r, b) ∧
      r[0]? = some pv :=
  C5_pivot_median_of_three natLT isSWO_natLT.asymm arrC5 0 17
    (by decide) (by decide)

theorem C5_not_first_middle_last :
    arrC5[0]? = some 100 ∧ arrC5[17 / 2]? = some 5 ∧ arrC5[17 - 1]? = some 10 ∧
    (∃ r b, partition_pivot natLT arrC5 0 17 = some (r, b) ∧ r[0]? = some 5) ∧
    natLT 5 10 = true ∧ natLT 5 100 = true := by
  refine ⟨by decide, by decide, by decide,
    ⟨[5, 0, 2, 3, 4, 6, 7, 8, 100, 9, 11, 12, 13, 14, 15, 16, 10], 5,
      by decide, by decide⟩, by decide, by decide⟩

/-- C6 (amended): after a partition of the long-enough range `[base, last)`
returns boundary `b`, the single recursive call is made on the RIGHT
partition `[b, last)` and the loop then continues on the left part
`[base, b)` — the opposite sides from the ones the spec names. The first
conjunct shows the loop body is exactly `recurse on [b, last), then continue
on [base, b)`; the second shows the recorded recursive-call ranges start
with `(b, last)`. `C6_left_recursion_counterexample` exhibits a run whose
complete recursive-call list is `[(9, 18)]`, not a call on `[0, 9)`. -/
theorem C6_recurse_right_iterate_left (lt : α → α → Bool) (l l1 : List α)
    (d base last b : Nat) (h : THRESHOLD < last - base)
    (hpp : partition_pivot lt l base (last - base) = some (l1, b)) :
    introsort_loop lt (d + 1) l base last =
      (introsort_loop lt d l1 b last).bind
        (fun l2 => introsort_loop lt d l2 base b) ∧
    (introsortCalls lt (d + 1) l base last).head? = some (b, last) := by
  constructor
  · rw [introsort_loop_succ_unfold h, hpp]
    rfl
  · rw [introsortCalls_succ_unfold h hpp]
    rfl

theorem C6_recurse_right_iterate_left_witness :
    introsort_loop natLT 1 rev18 0 18 =
      (introsort_loop natLT 0 introC6mid 9 18).bind
        (fun l2 => introsort_loop natLT 0 l2 0 9) ∧
    (introsortCalls natLT 1 rev18 0 18).head? = some (9, 18) :=
  C6_recurse_right_iterate_left natLT rev18 introC6mid 0 0 18 9
    (by decide) (by decide)

set_option maxHeartbeats 2000000 in
theorem C6_left_recursion_counterexample :
    introsortCalls natLT (2 * lg rev18.length) rev18 0 rev18.length = [(9, 18)] ∧
    partition_pivot natLT rev18 0 18 = some (introC6mid, 9) ∧
    ((9, 18) : Nat × Nat) ≠ (0, 9) := by
  refine ⟨by decide, by decide, by decide⟩

/-- C7 (amended): for a range of length at least 4 — which covers every call
site, since partition only runs on ranges longer than the threshold 16 — and
a strict-weak-order comparator, `partition_pivot` permutes only the range
and returns a boundary `b` with `first < b ≤ last` such that the pivot value
sits at the first cell, everything strictly before `b` is not greater than
the pivot, and everything from `b` on is not less than the pivot. The
original claim promised this for every length `len > 1`;
`C7_short_range_counterexample` shows the unguarded scan of a length-2 range
runs out of bounds instead. -/
theorem C7_partition_correct (lt : α → α → Bool) (hsw : IsSWO lt)
    (l : List α) (base len : Nat) (h4 : 4 ≤ len) (hb : base + len ≤ l.length) :
    ∃ r b v, partition_pivot lt l base len = some (r, b) ∧
      r.length = l.length ∧ List.Perm r l ∧
      base < b ∧ b ≤ base + len ∧ r[base]? = some v ∧
      (∀ k, base ≤ k → k < b → ∀ z, r[k]? = some z → lt v z = false) ∧
      (∀ k, b ≤ k → k < base + len → ∀ z, r[k]? = some z → lt z v = false) ∧
      (∀ k, k < base → r[k]? = l[k]?) ∧
      (∀ k, base + len ≤ k → r[k]? = l[k]?) := by
  obtain ⟨r, b, v, h1, h2, h3, hb1, hb2, h6, h7, h8, h9, h10⟩ :=
    partition_pivot_spec hsw.asymm l base len h4 hb
  exact ⟨r, b, v, h1, h2, h3, hb1, by omega, h6, h7, h8, h9, h10⟩

theorem C7_partition_correct_witness :
    IsSWO natLT ∧
      ∃ r b, partition_pivot natLT [3, 1, 2, 0] 0 4 = some (r, b) ∧ 0 < b := by
  refine ⟨isSWO_natLT, ?_⟩
  obtain ⟨r, b, v, h1, _, _, hb1, _⟩ :=
    C7_partition_correct natLT isSWO_natLT [3, 1, 2, 0] 0 4 (by decide) (by decide)
  exact ⟨r, b, h1, hb1⟩

theorem C7_short_range_counterexample :
    IsSWO natLT ∧ partition_pivot natLT [0, 1] 0 2 = none :=
  ⟨isSWO_natLT, by decide⟩

/-- C8: under a strict-weak-order comparator every entry point runs to
completion: in the embedding each loop's fuel is the bound the source loop
structure provides, so a `some` result means every scan, sift-down,
partition and the recursion-plus-loop of introsort terminated within those
bounds. -/
theorem C8_termination (lt : α → α → Bool) (hsw : IsSWO lt) (l : List α) :
    (∃ r, insertsort_by lt l = some r) ∧ (∃ r, heapsort_by lt l = some r) ∧
      (∃ r, introsort_by lt l = some r) := by
  obtain ⟨r1, h1, _, _⟩ := insertsort_impl_total_perm lt l
  obtain ⟨r2, h2, _, _⟩ := heapsort_by_total_perm lt l
  obtain ⟨r3, h3, _, _, _⟩ := introsort_impl_spec hsw l
  exact ⟨⟨r1, h1⟩, ⟨r2, h2⟩, ⟨r3, h3⟩⟩

theorem C8_termination_witness :
    IsSWO natLT ∧ ∃ r, heapsort_by natLT rev18 = some r :=
  ⟨isSWO_natLT, (C8_termination natLT isSWO_natLT rev18).2.1⟩

/-- C9 (amended): under a strict weak ordering, insertion sort returns an
already-sorted (adjacent-nondecreasing) sequence unchanged, and heap sort
and introsort return a strictly increasing sequence unchanged. The original
claim — all three sorts leave every nondecreasing input unchanged — fails in
the presence of ties: `C9_ties_counterexample` shows heap sort swapping the
two tied cells of a sorted two-element input. -/
theorem C9_idempotence (lt : α → α → Bool) (hsw : IsSWO lt) (l : List α) :
    (AdjNondecr lt l → insertsort_by lt l = some l) ∧
    (StrictIncr lt l → heapsort_by lt l = some l) ∧
    (StrictIncr lt l → introsort_by lt l = some l) := by
  refine ⟨?_, ?_, ?_⟩
  · intro h
    exact insertsort_impl_id_of_sorted h
  · intro h
    obtain ⟨r, hr, _, hperm, hadj⟩ := heapsort_by_sorted hsw l
    rw [hr, sorted_perm_unique hsw l r hperm h hadj]
  · intro h
    obtain ⟨r, hr, _, hperm, hadj⟩ := introsort_impl_spec hsw l
    show introsort_impl lt l = some l
    rw [hr, sorted_perm_unique hsw l r hperm h hadj]

theorem C9_idempotence_witness :
    IsSWO natLT ∧ AdjNondecr natLT [0, 1, 1, 2] ∧ StrictIncr natLT [0, 1, 2] ∧
    insertsort_by natLT [0, 1, 1, 2] = some [0, 1, 1, 2] ∧
    heapsort_by natLT [0, 1, 2] = some [0, 1, 2] ∧
    introsort_by natLT [0, 1, 2] = some [0, 1, 2] := by
  have hadj : AdjNondecr natLT [0, 1, 1, 2] := adjSortedB_iff.mp (by decide)
  have hsi : StrictIncr natLT [0, 1, 2] := strictIncrB_iff.mp (by decide)
  exact ⟨isSWO_natLT, hadj, hsi,
    (C9_idempotence natLT isSWO_natLT [0, 1, 1, 2]).1 hadj,
    (C9_idempotence natLT isSWO_natLT [0, 1, 2]).2.1 hsi,
    (C9_idempotence natLT isSWO_natLT [0, 1, 2]).2.2 hsi⟩

theorem C9_ties_counterexample :
    IsSWO pairLT ∧ AdjNondecr pairLT [(1, 0), (1, 1)] ∧
    heapsort_by pairLT [(1, 0), (1, 1)] = some [(1, 1), (1, 0)] ∧
    heapsort_by pairLT [(1, 0), (1, 1)] ≠ some [(1, 0), (1, 1)] :=
  ⟨isSWO_pairLT, adjSortedB_iff.mp (by decide), by decide, by decide⟩

/-- C10: for any comparator and any input of length at most the threshold
constant 16, the introsort quicksort/heapsort loop returns the sequence
untouched, and `introsort_by` produces exactly the output of
`insertsort_by` on the same input. -/
theorem C10_short_input_insertion (lt : α → α → Bool) (l : List α)
    (h : l.length ≤ 16) :
    introsort_loop lt (2 * lg l.length) l 0 l.length = some l ∧
    introsort_by lt l = insertsort_by lt l := by
  constructor
  · exact introsort_loop_small (by simp only [THRESHOLD]; omega)
  · exact introsort_by_eq_insertsort_by_of_short h

theorem C10_short_input_insertion_witness :
    introsort_by natLT [2, 0, 1, 1] = insertsort_by natLT [2, 0, 1, 1] :=
  (C10_short_input_insertion natLT [2, 0, 1, 1] (by decide)).2

end Sortrs
